import Mathlib

/-!
# sendhttp: request-override and response-projection pipeline

A shallow embedding of `main.go` (seh-msft/sendhttp).  Go strings are byte
sequences, so a string is a `List Nat` of byte values; the few standard-library
functions that `main` calls (`strings.Fields`, `strings.ContainsRune`,
`strings.SplitN`, `base64.StdEncoding`, `url.Values`) are embedded with their
Go semantics, and the two functions of the program (`main`, up to the network
call, and `http2response`) are embedded on top of them.
-/

namespace Sendhttp

/-- A Go `string`: a sequence of bytes. -/
abbrev Str := List Nat

/-- The bytes of an ASCII string literal. -/
def ascii (s : String) : Str := s.data.map Char.toNat

/-! ## `unicode/utf8` and `unicode.IsSpace` -/

/-- The value `utf8.RuneError` (U+FFFD). -/
def RuneError : Nat := 0xFFFD

/-- The range accepted for the second byte of a multi-byte sequence that starts
with `s0` (the table `acceptRanges` indexed through `first`). -/
def acceptRange (s0 : Nat) : Nat × Nat :=
  if s0 = 0xE0 then (0xA0, 0xBF)
  else if s0 = 0xED then (0x80, 0x9F)
  else if s0 = 0xF0 then (0x90, 0xBF)
  else if s0 = 0xF4 then (0x80, 0x8F)
  else (0x80, 0xBF)

/-- The function `utf8.DecodeRuneInString`: the first rune of `s` and its width
in bytes; an invalid or truncated sequence is `(RuneError, 1)`. -/
def DecodeRune : Str → Nat × Nat
  | [] => (RuneError, 0)
  | s0 :: t =>
    if s0 < 0x80 then (s0, 1)
    else if s0 < 0xC2 ∨ 0xF4 < s0 then (RuneError, 1)
    else
      match t with
      | [] => (RuneError, 1)
      | s1 :: t1 =>
        if s1 < (acceptRange s0).1 ∨ (acceptRange s0).2 < s1 then (RuneError, 1)
        else if s0 < 0xE0 then ((s0 % 32) * 64 + s1 % 64, 2)
        else
          match t1 with
          | [] => (RuneError, 1)
          | s2 :: t2 =>
            if s2 < 0x80 ∨ 0xBF < s2 then (RuneError, 1)
            else if s0 < 0xF0 then ((s0 % 16) * 4096 + (s1 % 64) * 64 + s2 % 64, 3)
            else
              match t2 with
              | [] => (RuneError, 1)
              | s3 :: _ =>
                if s3 < 0x80 ∨ 0xBF < s3 then (RuneError, 1)
                else ((s0 % 8) * 262144 + (s1 % 64) * 4096 + (s2 % 64) * 64 + s3 % 64, 4)

/-- The function `unicode.IsSpace`: the Latin-1 spaces and the code points with
the Unicode `White_Space` property. -/
def IsSpace (r : Nat) : Bool :=
  (0x09 ≤ r && r ≤ 0x0D) || r == 0x20 || r == 0x85 || r == 0xA0 || r == 0x1680 ||
  (0x2000 ≤ r && r ≤ 0x200A) || r == 0x2028 || r == 0x2029 || r == 0x202F ||
  r == 0x205F || r == 0x3000

/-! ## `strings` -/

/-- For every byte of the string, whether the rune it belongs to is white
space.  `skip` counts the bytes of the current rune still to come and `sp` is
the class of that rune; at `skip = 0` the next rune is decoded. -/
def spaceMask : Str → Nat → Bool → List Bool
  | [], _, _ => []
  | b :: t, 0, _ =>
    IsSpace (DecodeRune (b :: t)).1 ::
      spaceMask t ((DecodeRune (b :: t)).2 - 1) (IsSpace (DecodeRune (b :: t)).1)
  | _ :: t, k + 1, sp => sp :: spaceMask t k sp

/-- The splitting loop of `strings.FieldsFunc`: `cur` is the field in progress
(empty when none is open); a white-space byte closes it. -/
def fieldsLoop : List (Nat × Bool) → Str → List Str
  | [], cur => if cur = [] then [] else [cur]
  | (_, true) :: t, cur => (if cur = [] then [] else [cur]) ++ fieldsLoop t []
  | (b, false) :: t, cur => fieldsLoop t (cur ++ [b])

/-- The function `strings.Fields`: the maximal runs of non-white-space runes of
`s`, in order; empty when `s` is empty or all white space. -/
def Fields (s : Str) : List Str :=
  fieldsLoop (s.zip (spaceMask s 0 false)) []

/-- Go's `strings.ContainsRune(s, r)` for an ASCII rune `r`: a byte search. -/
def ContainsRune (s : Str) (r : Nat) : Bool := s.contains r

/-- Go's `strings.HasPrefix`. -/
def HasPrefix : Str → Str → Bool
  | _, [] => true
  | [], _ :: _ => false
  | a :: s, b :: p => a == b && HasPrefix s p

/-- The cut of `s` at the first occurrence of the non-empty separator `sep`
(`strings.Index` followed by the two slices taken by `genSplit`). -/
def Cut (sep : Str) : Str → Option (Str × Str)
  | [] => none
  | b :: t =>
    if HasPrefix (b :: t) sep then some ([], (b :: t).drop sep.length)
    else (Cut sep t).map (fun p => (b :: p.1, p.2))

/-- The loop of `genSplit` for a non-empty separator: at most `n` pieces. -/
def splitLoop (sep : Str) : Nat → Str → List Str
  | 0, _ => []
  | 1, s => [s]
  | n + 2, s =>
    match Cut sep s with
    | none => [s]
    | some (x, y) => x :: splitLoop sep (n + 1) y

/-- Go's `strings.SplitN(s, sep, n)` for a non-empty `sep` and `n ≥ 0`. -/
def SplitN (s sep : Str) (n : Nat) : List Str :=
  splitLoop sep (min n (s.length + 1)) s

/-! ## Go maps -/

/-- A Go `map[string]V`, as an association list; `GoMap.set` keeps at most one
entry per key when it starts from the empty map. -/
abbrev GoMap (V : Type) := List (Str × V)

/-- The read `m[k]` (with its presence flag). -/
def GoMap.get {V : Type} : GoMap V → Str → Option V
  | [], _ => none
  | (k', v) :: m, k => if k' = k then some v else GoMap.get m k

/-- The assignment `m[k] = v`. -/
def GoMap.set {V : Type} : GoMap V → Str → V → GoMap V
  | [], k, v => [(k, v)]
  | (k', v') :: m, k, v => if k' = k then (k, v) :: m else (k', v') :: GoMap.set m k v

/-! ## The override parser (`main`, lines 53-80) -/

/-- The ways the program stops without a result. -/
inductive Abort where
  /-- A run-time panic: index out of range. -/
  | indexOutOfRange
  /-- A run-time panic: slice bounds out of range. -/
  | sliceOutOfRange
  /-- A call of `fatal`: the message goes to the error stream, exit status 1. -/
  | fatal (msg : String)
  deriving DecidableEq, Repr

/-- The two override mappings built from the arguments. -/
structure OverrideSet where
  queries : GoMap Str
  headers : GoMap Str
  deriving DecidableEq, Repr

/-- The message of the invalid-format branch. -/
def invalidFormat : String :=
  "err: header/query substitutions must have the first word end in '?' or ':'"

/-- The kind of an override. -/
inductive Kind where
  | query
  | header
  deriving DecidableEq, Repr

/-- The slice expression `key[:len(key)-1]`. -/
def dropLastByte (key : Str) : Except Abort Str :=
  if key.length = 0 then .error .sliceOutOfRange else .ok key.dropLast

/-- The index expression `xs[i]`. -/
def index {α : Type} (xs : List α) (i : Nat) : Except Abort α :=
  match xs.get? i with
  | none => .error .indexOutOfRange
  | some x => .ok x

/-- The separator of a query override, `"? "`. -/
def sepQuery : Str := [0x3F, 0x20]

/-- The separator of a header override, `": "`. -/
def sepHeader : Str := [0x3A, 0x20]

/-- The body of the loop over the arguments up to the map assignment: which map
is assigned, at which key, which value.  The first field is taken with
`strings.Fields(arg)[0]`, the branch with `strings.ContainsRune`, the key with
`key[:len(key)-1]` and the value with `strings.SplitN(arg, sep, 2)[1]`. -/
def classify (arg : Str) : Except Abort (Kind × Str × Str) :=
  (index (Fields arg) 0).bind fun key =>
    if ContainsRune key 0x3F then
      (dropLastByte key).bind fun key =>
        (index (SplitN arg sepQuery 2) 1).bind fun v => .ok (Kind.query, key, v)
    else if ContainsRune key 0x3A then
      (dropLastByte key).bind fun key =>
        (index (SplitN arg sepHeader 2) 1).bind fun v => .ok (Kind.header, key, v)
    else .error (Abort.fatal invalidFormat)

/-- One iteration of the loop over the arguments. -/
def parseArg (os : OverrideSet) (arg : Str) : Except Abort OverrideSet :=
  (classify arg).bind fun r =>
    match r with
    | (Kind.query, key, v) => .ok { os with queries := os.queries.set key v }
    | (Kind.header, key, v) => .ok { os with headers := os.headers.set key v }

/-- The override parser: the loop over `flag.Args()`, from two empty maps. -/
def parseOverrides (args : List Str) : Except Abort OverrideSet :=
  args.foldlM parseArg { queries := [], headers := [] }

/-- Equality of results is decidable, so that a run can be compared with its
expected outcome. -/
instance decEqExcept {α : Type} [DecidableEq α] : DecidableEq (Except Abort α)
  | .ok a, .ok b =>
    if h : a = b then isTrue (congrArg Except.ok h)
    else isFalse (fun h' => h (Except.ok.inj h'))
  | .error a, .error b =>
    if h : a = b then isTrue (congrArg Except.error h)
    else isFalse (fun h' => h (Except.error.inj h'))
  | .ok _, .error _ => isFalse (fun h => Except.noConfusion h)
  | .error _, .ok _ => isFalse (fun h => Except.noConfusion h)

/-! ## `encoding/base64`, the standard padded encoding -/

/-- The alphabet `encodeStd`: the character of a 6-bit value. -/
def encodeStd (i : Nat) : Nat :=
  if i < 26 then 65 + i
  else if i < 52 then 97 + (i - 26)
  else if i < 62 then 48 + (i - 52)
  else if i = 62 then 43
  else 47

/-- The table `decodeMap` of the standard encoding: the 6-bit value of a
character of the alphabet, `0xFF` for every other byte. -/
def decodeMap (c : Nat) : Nat :=
  if 65 ≤ c ∧ c ≤ 90 then c - 65
  else if 97 ≤ c ∧ c ≤ 122 then c - 97 + 26
  else if 48 ≤ c ∧ c ≤ 57 then c - 48 + 52
  else if c = 43 then 62
  else if c = 47 then 63
  else 0xFF

/-- The padding character `=`. -/
def padChar : Nat := 61

/-- The function `StdEncoding.EncodeToString`: three bytes give four characters;
a remainder of one or two bytes gives two or three characters and padding. -/
def EncodeToString : Str → Str
  | [] => []
  | [a] =>
    [encodeStd (a * 65536 / 262144 % 64), encodeStd (a * 65536 / 4096 % 64), padChar, padChar]
  | [a, b] =>
    [encodeStd ((a * 65536 + b * 256) / 262144 % 64),
     encodeStd ((a * 65536 + b * 256) / 4096 % 64),
     encodeStd ((a * 65536 + b * 256) / 64 % 64), padChar]
  | a :: b :: c :: rest =>
    encodeStd ((a * 65536 + b * 256 + c) / 262144 % 64) ::
    encodeStd ((a * 65536 + b * 256 + c) / 4096 % 64) ::
    encodeStd ((a * 65536 + b * 256 + c) / 64 % 64) ::
    encodeStd ((a * 65536 + b * 256 + c) % 64) :: EncodeToString rest

/-- The skipping of `\n` and `\r` after a padding character. -/
def skipNewlines : Str → Str
  | [] => []
  | c :: t => if c = 10 ∨ c = 13 then skipNewlines t else c :: t

/-- The 24-bit value assembled from the 6-bit values of a quantum. -/
def quantumVal (d0 d1 d2 d3 : Nat) : Nat := d0 * 262144 + d1 * 4096 + d2 * 64 + d3

/-- The decoding loop (`Decode` calling `decodeQuantum`): `dbuf` holds the 6-bit
values read so far in the current quantum.  `none` is a `CorruptInputError`. -/
def decodeLoop : Str → List Nat → Option Str
  | [], [] => some []
  | [], _ :: _ => none
  | c :: t, dbuf =>
    if decodeMap c ≠ 0xFF then
      match dbuf with
      | [d0, d1, d2] =>
        (decodeLoop t []).map fun r =>
          quantumVal d0 d1 d2 (decodeMap c) / 65536 % 256 ::
          quantumVal d0 d1 d2 (decodeMap c) / 256 % 256 ::
          quantumVal d0 d1 d2 (decodeMap c) % 256 :: r
      | _ => decodeLoop t (dbuf ++ [decodeMap c])
    else if c = 10 ∨ c = 13 then decodeLoop t dbuf
    else if c ≠ padChar then none
    else
      match dbuf with
      | [d0, d1] =>
        match skipNewlines t with
        | [] => none
        | c' :: t' =>
          if c' ≠ padChar then none
          else if skipNewlines t' ≠ [] then none
          else some [quantumVal d0 d1 0 0 / 65536 % 256]
      | [d0, d1, d2] =>
        if skipNewlines t ≠ [] then none
        else some [quantumVal d0 d1 d2 0 / 65536 % 256, quantumVal d0 d1 d2 0 / 256 % 256]
      | _ => none

/-- The function `StdEncoding.DecodeString`; `none` when it returns an error. -/
def DecodeString (s : Str) : Option Str := decodeLoop s []

/-! ## `net/url`: query strings -/

/-- Go's `url.Values`, a `map[string][]string`. -/
abbrev Values := GoMap (List Str)

/-- The test `ishex`. -/
def ishex (c : Nat) : Bool :=
  (48 ≤ c && c ≤ 57) || (97 ≤ c && c ≤ 102) || (65 ≤ c && c ≤ 70)

/-- The value `unhex` of a hexadecimal digit. -/
def unhex (c : Nat) : Nat :=
  if 48 ≤ c ∧ c ≤ 57 then c - 48
  else if 97 ≤ c ∧ c ≤ 102 then c - 97 + 10
  else if 65 ≤ c ∧ c ≤ 70 then c - 65 + 10
  else 0

/-- The function `url.QueryUnescape`: `%XX` is the byte `XX`, `+` is a space;
`none` (an `EscapeError`) when a `%` is not followed by two hexadecimal digits. -/
def QueryUnescape : Str → Option Str
  | [] => some []
  | c :: t =>
    if c = 0x25 then
      match t with
      | h1 :: h2 :: t' =>
        if ishex h1 && ishex h2 then
          (QueryUnescape t').map fun r => (unhex h1 * 16 + unhex h2) :: r
        else none
      | _ => none
    else if c = 0x2B then (QueryUnescape t).map fun r => 0x20 :: r
    else (QueryUnescape t).map fun r => c :: r

/-- The test `shouldEscape(c, encodeQueryComponent)`: everything but the
unreserved characters (letters, digits, `-`, `_`, `.`, `~`). -/
def shouldEscape (c : Nat) : Bool :=
  !((97 ≤ c && c ≤ 122) || (65 ≤ c && c ≤ 90) || (48 ≤ c && c ≤ 57) ||
    c == 0x2D || c == 0x5F || c == 0x2E || c == 0x7E)

/-- The digit `upperhex[n]`. -/
def upperhex (n : Nat) : Nat := if n < 10 then 48 + n else 65 + (n - 10)

/-- The function `url.QueryEscape`. -/
def QueryEscape : Str → Str
  | [] => []
  | c :: t =>
    if c = 0x20 then 0x2B :: QueryEscape t
    else if shouldEscape c then 0x25 :: upperhex (c / 16) :: upperhex (c % 16) :: QueryEscape t
    else c :: QueryEscape t

/-- The pieces of a string between the occurrences of the byte `sep`. -/
def splitByte (sep : Nat) : Str → List Str
  | [] => [[]]
  | c :: t =>
    if c = sep then [] :: splitByte sep t
    else
      match splitByte sep t with
      | [] => [[c]]
      | x :: xs => (c :: x) :: xs

/-- The cut of a `key=value` setting at its first `=` (`strings.Cut`): without
one the whole setting is the key and the value is empty. -/
def cutEq : Str → Str × Str
  | [] => ([], [])
  | c :: t => if c = 0x3D then ([], t) else ((c :: (cutEq t).1), (cutEq t).2)

/-- One round of the loop of `url.parseQuery` on the setting `seg`: a setting
that is empty, holds a semicolon or does not unescape is skipped; otherwise its
value is appended to the values of its key. -/
def parseSetting (m : Values) (seg : Str) : Values :=
  if ContainsRune seg 0x3B then m
  else if seg = [] then m
  else
    match QueryUnescape (cutEq seg).1, QueryUnescape (cutEq seg).2 with
    | some key, some value => m.set key ((m.get key).getD [] ++ [value])
    | _, _ => m

/-- The function `url.ParseQuery`, with its error dropped as `URL.Query` does:
the settings are the pieces of the query between `&`. -/
def ParseQuery (query : Str) : Values :=
  (splitByte 0x26 query).foldl parseSetting []

/-- Go's comparison `a <= b` of strings: byte-wise lexicographic. -/
def strLe : Str → Str → Bool
  | [], _ => true
  | _ :: _, [] => false
  | a :: s, b :: t => decide (a < b) || (a == b && strLe s t)

/-- The `key`, `value` pairs that `Values.Encode` writes, in the order it writes
them: the keys sorted with `sort.Strings`, the values of a key in their order. -/
def encodePairs (v : Values) : List (Str × Str) :=
  (List.insertionSort (fun a b => strLe a b = true) (v.map Prod.fst)).flatMap fun k =>
    ((v.get k).getD []).map fun x => (k, x)

/-- The text written for one pair: `QueryEscape(k) + "=" + QueryEscape(v)`. -/
def encodePair (p : Str × Str) : Str := QueryEscape p.1 ++ [0x3D] ++ QueryEscape p.2

/-- One round of the writing loop of `Values.Encode`: a `&` when the buffer is
not empty, then the text of the pair. -/
def writePair (buf : Str) (p : Str × Str) : Str :=
  (if buf ≠ [] then buf ++ [0x26] else buf) ++ encodePair p

/-- The function `Values.Encode`: the pairs written one after the other into an
empty buffer. -/
def Values.Encode (v : Values) : Str := (encodePairs v).foldl writePair []

/-! ## The request materializer (`main`, lines 99-127) -/

/-- The fields of `url.URL` that the program reads or writes, and the path. -/
structure URL where
  Scheme : Str
  Host : Str
  Path : Str
  RawQuery : Str
  deriving DecidableEq, Repr

/-- The method `URL.Query`. -/
def URL.Query (u : URL) : Values := ParseQuery u.RawQuery

/-- The fields of `http.Request` that the program reads or writes; `Body` is the
content of the body stream. -/
structure Request where
  Method : Str
  URL : URL
  Proto : Str
  Header : GoMap (List Str)
  Body : Str
  Host : Str
  RequestURI : Str
  deriving DecidableEq, Repr

/-- The loops `for k, v := range m { target[k] = []string{v} }` of the header
and query overrides: every entry of `m` is assigned as a one-element list. -/
def override (target : GoMap (List Str)) (m : GoMap Str) : GoMap (List Str) :=
  m.foldl (fun t kv => t.set kv.1 [kv.2]) target

/-- The message of a failed base64 decoding. -/
def decodeFailed : String := "err: could not base64-decode body"

/-- The request materializer: the scheme and host patch, the header overrides,
the query overrides re-encoded, and the body substitute (`-b`, decoded from
base64 under `-d`), which is used only when it is not the empty string. -/
def materialize (req : Request) (proto : Str) (os : OverrideSet) (subBody : Str)
    (b64 : Bool) : Except Abort Request :=
  let req := { req with RequestURI := [] }
  let req := { req with URL := { req.URL with Scheme := proto } }
  let req := { req with URL := { req.URL with Host := req.Host } }
  let req := { req with Header := override req.Header os.headers }
  let vals := override req.URL.Query os.queries
  let req := { req with URL := { req.URL with RawQuery := Values.Encode vals } }
  if subBody ≠ [] then
    if b64 then
      match DecodeString subBody with
      | none => .error (Abort.fatal decodeFailed)
      | some buf => .ok { req with Body := buf }
    else .ok { req with Body := subBody }
  else .ok req

/-- The program up to the network call: the overrides are parsed from the
arguments, then applied to the request read from the input. -/
def resolve (args : List Str) (req : Request) (proto subBody : Str) (b64 : Bool) :
    Except Abort Request :=
  (parseOverrides args).bind fun os => materialize req proto os subBody b64

/-! ## The response projector (`http2response`) -/

/-- A summary of a TLS session (`tls.ConnectionState`). -/
structure ConnectionState where
  Version : Nat
  HandshakeComplete : Bool
  CipherSuite : Nat
  ServerName : Str
  deriving DecidableEq, Repr

/-- The response received from the transport (`http.Response`); `Body` lists the
chunks that the successive reads of the body stream deliver. -/
structure HttpResponse where
  Status : Str
  StatusCode : Int
  Proto : Str
  ProtoMajor : Int
  ProtoMinor : Int
  Header : GoMap (List Str)
  Body : List Str
  ContentLength : Int
  TransferEncoding : List Str
  Close : Bool
  Uncompressed : Bool
  TLS : Option ConnectionState
  deriving DecidableEq, Repr

/-- The record `Response` of the program. -/
structure Response where
  Status : Str
  StatusCode : Int
  Proto : Str
  ProtoMajor : Int
  ProtoMinor : Int
  Header : GoMap (List Str)
  Body : Str
  ContentLength : Int
  TransferEncoding : List Str
  Close : Bool
  Uncompressed : Bool
  TLS : Option ConnectionState
  deriving DecidableEq, Repr

/-- The method `bytes.Buffer.ReadFrom` followed by `String`: everything the
stream delivers, in order. -/
def readAll (body : List Str) : Str := body.flatten

/-- The function `http2response`; the flags `-B` (`noBody`) and `-T` (`yesTLS`)
are its two global inputs. -/
def http2response (noBody yesTLS : Bool) (r : HttpResponse) : Response :=
  let resp : Response :=
    { Status := r.Status
      StatusCode := r.StatusCode
      Proto := r.Proto
      ProtoMajor := r.ProtoMajor
      ProtoMinor := r.ProtoMinor
      Header := r.Header
      Body := []
      ContentLength := r.ContentLength
      TransferEncoding := r.TransferEncoding
      Close := r.Close
      Uncompressed := r.Uncompressed
      TLS := none }
  let resp := if !noBody then { resp with Body := readAll r.Body } else resp
  let resp := if yesTLS then { resp with TLS := r.TLS } else resp
  resp

/-! ## Inputs and predicates of the statements -/

/-- The parsed request of the end-to-end scenario, `GET /x?a=1 HTTP/1.1` with
`Host: example.com` and no body. -/
def scenarioRequest : Request :=
  { Method := ascii "GET"
    URL := { Scheme := [], Host := [], Path := ascii "/x", RawQuery := ascii "a=1" }
    Proto := ascii "HTTP/1.1"
    Header := []
    Body := []
    Host := ascii "example.com"
    RequestURI := ascii "/x?a=1" }

/-- A request like the one of the scenario that arrives with the body `x`. -/
def bodyRequest : Request := { scenarioRequest with Method := ascii "POST", Body := ascii "x" }

/-- The empty override set. -/
def noOverrides : OverrideSet := { queries := [], headers := [] }

/-- The first field of `arg` is `tok`, and the byte right after this field is a
space: `arg` is white space `pre` (possibly none), then `tok`, then a space,
then anything. -/
def firstFieldThenSpace (arg tok : Str) : Prop :=
  (Fields arg).head? = some tok ∧
    ∃ pre rest : Str, Fields pre = [] ∧ arg = pre ++ (tok ++ 0x20 :: rest)

/-- Some rune of `s` is white space (`strings.IndexFunc(s, unicode.IsSpace) >= 0`). -/
def hasSpace (s : Str) : Bool := (spaceMask s 0 false).any id

/-- The value that `arg` gives to the key `k` of the mapping `kind`, when `arg`
is an override of that kind at that key. -/
def valueFor (kind : Kind) (k : Str) (arg : Str) : Option Str :=
  match classify arg with
  | .ok (kd, k', v) => if kd = kind ∧ k' = k then some v else none
  | .error _ => none

/-- The value of the last argument of `args` that is an override of kind `kind`
at the key `k`, if there is one. -/
def lastValue (kind : Kind) (k : Str) (args : List Str) : Option Str :=
  (args.filterMap (valueFor kind k)).getLast?

/-- The shape of an argument in C10: its first field either ends in `?` or holds
no `?` and ends in `:`, and the byte right after the field is a space. -/
def safeArg (arg : Str) : Prop :=
  ∃ tok : Str, firstFieldThenSpace arg tok ∧
    (tok.getLast? = some 0x3F ∨ (0x3F ∉ tok ∧ tok.getLast? = some 0x3A))

/-- The override set of the end-to-end scenario, as the parser returns it. -/
def scenarioOverrides : OverrideSet :=
  { queries := [(ascii "a", ascii "2")], headers := [(ascii "X-Test", ascii "v")] }

/-- The map assignment that ends an iteration. -/
def assign (os : OverrideSet) (r : Kind × Str × Str) : OverrideSet :=
  match r with
  | (Kind.query, key, v) => { os with queries := os.queries.set key v }
  | (Kind.header, key, v) => { os with headers := os.headers.set key v }

/-- A string of the program holds bytes: every element is below 256. -/
def isBytes (s : Str) : Prop := ∀ x ∈ s, x < 256

instance (s : Str) : Decidable (isBytes s) :=
  inferInstanceAs (Decidable (∀ x ∈ s, x < 256))

/-- The request of the scenario with two headers and a second query parameter. -/
def witnessRequest : Request :=
  { scenarioRequest with
    URL := { scenarioRequest.URL with RawQuery := ascii "a=1&b=3" }
    Header := [(ascii "Accept", [ascii "a", ascii "b"]), (ascii "X-Test", [ascii "old"])] }

/-- The request `witnessRequest` resolved under `a? 2` and `X-Test: v`. -/
def witnessResolved : Request :=
  { scenarioRequest with
    URL := { Scheme := ascii "http", Host := ascii "example.com", Path := ascii "/x",
             RawQuery := ascii "a=2&b=3" }
    Header := [(ascii "Accept", [ascii "a", ascii "b"]), (ascii "X-Test", [ascii "v"])]
    RequestURI := [] }

/-- The append `m[k] = append(m[k], v)` of one pair `(k, v)`. -/
def addPair (m : Values) (p : Str × Str) : Values :=
  m.set p.1 ((m.get p.1).getD [] ++ [p.2])

/-- A map is well formed when no key occurs twice, as in every Go map. -/
def GoMap.WF {V : Type} (m : GoMap V) : Prop := (m.map Prod.fst).Nodup

/-- The query parameters of the resolved request before they are encoded (the
variable `vals` after the override loop). -/
def queryValues (req : Request) (os : OverrideSet) : Values :=
  override req.URL.Query os.queries

instance {V : Type} (m : GoMap V) : Decidable (GoMap.WF m) :=
  inferInstanceAs (Decidable (m.map Prod.fst).Nodup)

/-- The values of a map of query parameters are what a query string can say:
no key twice, keys and values byte strings, no key with an empty value list. -/
def Values.Good (m : Values) : Prop :=
  GoMap.WF m ∧ ∀ p ∈ m, isBytes p.1 ∧ p.2 ≠ [] ∧ ∀ v ∈ p.2, isBytes v

/-! ## Maps: reads after writes -/

theorem GoMap.get_set_self {V : Type} (m : GoMap V) (k : Str) (v : V) :
    (m.set k v).get k = some v := by
  induction m with
  | nil => simp [GoMap.set, GoMap.get]
  | cons p m ih =>
    obtain ⟨k', v'⟩ := p
    by_cases h : k' = k
    · simp [GoMap.set, GoMap.get, h]
    · simp [GoMap.set, GoMap.get, h, ih]

theorem GoMap.get_set_ne {V : Type} (m : GoMap V) (k k' : Str) (v : V) (h : k ≠ k') :
    (m.set k v).get k' = m.get k' := by
  induction m with
  | nil => simp [GoMap.set, GoMap.get, h]
  | cons p m ih =>
    obtain ⟨k0, v0⟩ := p
    by_cases h0 : k0 = k
    · subst h0
      simp [GoMap.set, GoMap.get, h]
    · by_cases h1 : k0 = k'
      · subst h1
        simp [GoMap.set, GoMap.get, h0]
      · simp [GoMap.set, GoMap.get, h0, h1, ih]

theorem GoMap.get_eq_none {V : Type} (m : GoMap V) (k : Str) (h : k ∉ m.map Prod.fst) :
    m.get k = none := by
  induction m with
  | nil => rfl
  | cons p m ih =>
    obtain ⟨k0, v0⟩ := p
    simp only [List.map_cons, List.mem_cons, not_or] at h
    have h0 : ¬ k0 = k := fun e => h.1 e.symm
    simp [GoMap.get, h0, ih h.2]

theorem GoMap.keys_set {V : Type} (m : GoMap V) (k : Str) (v : V) :
    (m.set k v).map Prod.fst = if k ∈ m.map Prod.fst then m.map Prod.fst
      else m.map Prod.fst ++ [k] := by
  induction m with
  | nil => simp [GoMap.set]
  | cons p m ih =>
    obtain ⟨k0, v0⟩ := p
    by_cases h0 : k0 = k
    · subst h0
      simp [GoMap.set]
    · have h1 : ¬ k = k0 := fun e => h0 e.symm
      simp only [GoMap.set, h0, if_false, List.map_cons, ih, List.mem_cons, h1, false_or]
      split <;> simp

theorem GoMap.wf_set {V : Type} (m : GoMap V) (k : Str) (v : V) (h : m.WF) :
    (m.set k v).WF := by
  unfold GoMap.WF at *
  rw [GoMap.keys_set]
  split
  · exact h
  · rename_i hk
    exact List.Nodup.append h (List.nodup_singleton k) (by simpa using hk)

/-- Reading the target of an override loop: an overridden key holds the one
override value, every other key holds what it held. -/
theorem get_override (target : GoMap (List Str)) (m : GoMap Str) (k : Str) (h : m.WF) :
    (override target m).get k =
      match m.get k with
      | some v => some [v]
      | none => target.get k := by
  induction m generalizing target with
  | nil => simp [override, GoMap.get]
  | cons p m ih =>
    obtain ⟨k0, v0⟩ := p
    have hm : GoMap.WF m := (List.nodup_cons.mp h).2
    have hk0 : k0 ∉ m.map Prod.fst := (List.nodup_cons.mp h).1
    have step : override target ((k0, v0) :: m) = override (target.set k0 [v0]) m := by
      simp [override]
    rw [step, ih _ hm]
    by_cases e : k0 = k
    · subst e
      simp [GoMap.get, GoMap.get_eq_none m k0 hk0, GoMap.get_set_self]
    · simp [GoMap.get, e, GoMap.get_set_ne _ _ _ _ e]

/-! ## The order of the encoded query -/

theorem strLe_refl (a : Str) : strLe a a = true := by
  induction a with
  | nil => rfl
  | cons x a ih => simp [strLe, ih]

theorem strLe_total (a b : Str) : strLe a b = true ∨ strLe b a = true := by
  induction a generalizing b with
  | nil => left; rfl
  | cons x a ih =>
    cases b with
    | nil => right; rfl
    | cons y b =>
      simp only [strLe, Bool.or_eq_true, Bool.and_eq_true, decide_eq_true_eq, beq_iff_eq]
      rcases Nat.lt_trichotomy x y with h | h | h
      · exact Or.inl (Or.inl h)
      · rcases ih b with h' | h'
        · exact Or.inl (Or.inr ⟨h, h'⟩)
        · exact Or.inr (Or.inr ⟨h.symm, h'⟩)
      · exact Or.inr (Or.inl h)

theorem strLe_trans (a b c : Str) (hab : strLe a b = true) (hbc : strLe b c = true) :
    strLe a c = true := by
  induction a generalizing b c with
  | nil => rfl
  | cons x a ih =>
    cases b with
    | nil => simp [strLe] at hab
    | cons y b =>
      cases c with
      | nil => simp [strLe] at hbc
      | cons z c =>
        simp only [strLe, Bool.or_eq_true, Bool.and_eq_true, decide_eq_true_eq,
          beq_iff_eq] at hab hbc ⊢
        rcases hab with h1 | ⟨h1, h1'⟩ <;> rcases hbc with h2 | ⟨h2, h2'⟩
        · exact Or.inl (by omega)
        · exact Or.inl (by omega)
        · exact Or.inl (by omega)
        · exact Or.inr ⟨by omega, ih b c h1' h2'⟩

instance strLe_isTotal : IsTotal Str (fun a b => strLe a b = true) := ⟨strLe_total⟩

instance strLe_isTrans : IsTrans Str (fun a b => strLe a b = true) :=
  ⟨fun a b c => strLe_trans a b c⟩

/-- The keys of the pairs that `Values.Encode` writes are in ascending order. -/
theorem encodePairs_sorted (v : Values) :
    List.Sorted (fun a b => strLe a b = true) ((encodePairs v).map Prod.fst) := by
  have hs := List.sorted_insertionSort (fun a b => strLe a b = true) (v.map Prod.fst)
  unfold encodePairs
  rw [List.map_flatMap]
  unfold List.Sorted at *
  rw [List.pairwise_flatMap]
  refine ⟨?_, ?_⟩
  · intro k _
    simp only [List.map_map]
    rw [List.pairwise_map]
    exact List.pairwise_of_forall (fun _ _ => strLe_refl k)
  · refine hs.imp ?_
    intro a b hab x hx y hy
    simp only [List.map_map, List.mem_map, Function.comp] at hx hy
    obtain ⟨_, _, rfl⟩ := hx
    obtain ⟨_, _, rfl⟩ := hy
    exact hab

/-! ## `strings`: cutting at a separator -/

theorem HasPrefix_append (sep rest : Str) : HasPrefix (sep ++ rest) sep = true := by
  induction sep with
  | nil => cases rest <;> rfl
  | cons c sep ih => simp [HasPrefix, ih]

/-- A string that holds the separator is cut somewhere. -/
theorem Cut_isSome (c : Nat) (sep a b : Str) :
    (Cut (c :: sep) (a ++ c :: (sep ++ b))).isSome = true := by
  induction a with
  | nil =>
    have h := HasPrefix_append (c :: sep) b
    simp only [List.nil_append, List.cons_append] at h ⊢
    simp [Cut, h]
  | cons x a ih =>
    simp only [List.cons_append]
    rw [Cut]
    split
    · rfl
    · cases hc : Cut (c :: sep) (a ++ c :: (sep ++ b)) with
      | none => rw [hc] at ih; exact absurd ih (by simp)
      | some p => rfl

/-- A string whose head part is free of the first byte of the separator is cut
right after that part. -/
theorem Cut_first (c : Nat) (sep a b : Str) (h : c ∉ a) :
    Cut (c :: sep) (a ++ c :: (sep ++ b)) = some (a, b) := by
  induction a with
  | nil =>
    have hp := HasPrefix_append (c :: sep) b
    simp only [List.nil_append, List.cons_append] at hp ⊢
    simp [Cut, hp]
  | cons x a ih =>
    simp only [List.mem_cons, not_or] at h
    have hx : ¬ x = c := fun e => h.1 e.symm
    simp only [List.cons_append]
    rw [Cut]
    simp [HasPrefix, hx, ih h.2]

theorem SplitN_two (s sep : Str) (h : s ≠ []) :
    SplitN s sep 2 =
      match Cut sep s with
      | none => [s]
      | some (x, y) => [x, y] := by
  have hl : min 2 (s.length + 1) = 2 := by
    cases s with
    | nil => exact absurd rfl h
    | cons a t => simp
  unfold SplitN
  rw [hl]
  simp only [splitLoop]

theorem index_cons_zero {α : Type} (x : α) (xs : List α) : index (x :: xs) 0 = .ok x := rfl

theorem index_cons_one {α : Type} (x y : α) (xs : List α) :
    index (x :: y :: xs) 1 = .ok y := rfl

theorem index_of_head {α : Type} (xs : List α) (x : α) (h : xs.head? = some x) :
    index xs 0 = .ok x := by
  cases xs with
  | nil => simp at h
  | cons y ys =>
    simp only [List.head?_cons, Option.some.injEq] at h
    subst h
    rfl

/-! ## `strings.Fields`: a first field without white space -/

theorem acceptRange_lo (s0 : Nat) : 0x80 ≤ (acceptRange s0).1 := by
  unfold acceptRange
  split_ifs <;> simp

/-- Decoding the first rune of a non-empty string does not depend on an ASCII
byte put after the string. -/
theorem DecodeRune_append_ascii (s : Str) (hs : s ≠ []) (c : Nat) (hc : c < 0x80)
    (rest : Str) : DecodeRune (s ++ c :: rest) = DecodeRune s := by
  rcases s with _ | ⟨s0, _ | ⟨s1, _ | ⟨s2, _ | ⟨s3, t3⟩⟩⟩⟩
  · exact absurd rfl hs
  · have hlo : c < (acceptRange s0).1 := lt_of_lt_of_le hc (acceptRange_lo s0)
    simp only [List.singleton_append, DecodeRune]
    split_ifs <;> first | rfl | omega
  · simp only [List.cons_append, List.nil_append, DecodeRune]
    split_ifs <;> first | rfl | omega
  · simp only [List.cons_append, List.nil_append, DecodeRune]
    split_ifs <;> first | rfl | omega
  · simp only [List.cons_append, DecodeRune]

theorem DecodeRune_width (b : Nat) (t : Str) : (DecodeRune (b :: t)).2 - 1 ≤ t.length := by
  rcases t with _ | ⟨s1, _ | ⟨s2, _ | ⟨s3, t3⟩⟩⟩ <;>
    simp only [DecodeRune] <;> split_ifs <;> simp

theorem spaceMask_cons_zero (b : Nat) (t : Str) (sp : Bool) :
    spaceMask (b :: t) 0 sp =
      IsSpace (DecodeRune (b :: t)).1 ::
        spaceMask t ((DecodeRune (b :: t)).2 - 1) (IsSpace (DecodeRune (b :: t)).1) := rfl

theorem spaceMask_cons_succ (b : Nat) (t : Str) (n : Nat) (sp : Bool) :
    spaceMask (b :: t) (n + 1) sp = sp :: spaceMask t n sp := rfl

theorem fieldsLoop_cons_false (b : Nat) (t : List (Nat × Bool)) (cur : Str) :
    fieldsLoop ((b, false) :: t) cur = fieldsLoop t (cur ++ [b]) := rfl

theorem fieldsLoop_cons_true (b : Nat) (t : List (Nat × Bool)) (cur : Str) :
    fieldsLoop ((b, true) :: t) cur = (if cur = [] then [] else [cur]) ++ fieldsLoop t [] := rfl

/-- The white-space mask of a string followed by an ASCII byte is the mask of
the string followed by the mask of what comes after it: no rune of the string
reaches over its end. -/
theorem spaceMask_append (k : Str) (c : Nat) (hc : c < 0x80) (rest : Str) (n : Nat)
    (sp : Bool) (hn : n ≤ k.length) :
    spaceMask (k ++ c :: rest) n sp = spaceMask k n sp ++ spaceMask (c :: rest) 0 false := by
  induction k generalizing n sp with
  | nil =>
    have h0 : n = 0 := by simpa using hn
    subst h0
    rfl
  | cons b t ih =>
    cases n with
    | zero =>
      have hd : DecodeRune (b :: (t ++ c :: rest)) = DecodeRune (b :: t) :=
        DecodeRune_append_ascii (b :: t) (by simp) c hc rest
      rw [List.cons_append, spaceMask_cons_zero, hd, ih _ _ (DecodeRune_width b t),
        spaceMask_cons_zero b t]
      rfl
    | succ m =>
      rw [List.cons_append, spaceMask_cons_succ, ih _ _ (by simpa using hn),
        spaceMask_cons_succ b t]
      rfl

theorem fieldsLoop_nonspace (k : Str) (mask : List Bool) (hm : mask.length = k.length)
    (hf : ∀ b ∈ mask, b = false) (tail : List (Nat × Bool)) (cur : Str) :
    fieldsLoop (k.zip mask ++ tail) cur = fieldsLoop tail (cur ++ k) := by
  induction k generalizing mask cur with
  | nil => simp
  | cons x k ih =>
    cases mask with
    | nil => simp at hm
    | cons b mask =>
      have hb : b = false := hf b (by simp)
      subst hb
      rw [List.zip_cons_cons, List.cons_append, fieldsLoop_cons_false,
        ih mask (by simpa using hm) (fun b hb => hf b (by simp [hb]))]
      simp

theorem spaceMask_length (s : Str) (n : Nat) (sp : Bool) :
    (spaceMask s n sp).length = s.length := by
  induction s generalizing n sp with
  | nil => rfl
  | cons b t ih => cases n <;> simp [spaceMask, ih]

/-- The first field of a string that starts with a part `k` free of white
space, then an ASCII byte `c` that is not white space, then a space. -/
theorem Fields_first (k : Str) (c : Nat) (hc : c < 0x80) (hcs : IsSpace c = false)
    (rest : Str) (hk : hasSpace k = false) :
    (Fields (k ++ c :: 0x20 :: rest)).head? = some (k ++ [c]) := by
  have hmask : spaceMask (k ++ c :: 0x20 :: rest) 0 false =
      spaceMask k 0 false ++ false :: true :: spaceMask rest 0 true := by
    rw [spaceMask_append k c hc _ 0 false (Nat.zero_le _)]
    have h1 : DecodeRune (c :: 0x20 :: rest) = (c, 1) := by simp [DecodeRune, hc]
    have h2 : DecodeRune (0x20 :: rest) = (0x20, 1) := by simp [DecodeRune]
    rw [spaceMask_cons_zero c, h1]
    show spaceMask k 0 false ++ IsSpace c :: spaceMask (0x20 :: rest) 0 (IsSpace c) = _
    rw [spaceMask_cons_zero 0x20, h2, hcs]
    rfl
  have hall : ∀ b ∈ spaceMask k 0 false, b = false := by
    intro b hb
    unfold hasSpace at hk
    rw [List.any_eq_false] at hk
    have := hk b hb
    simpa using this
  unfold Fields
  rw [hmask, List.zip_append (by rw [spaceMask_length])]
  rw [fieldsLoop_nonspace k _ (spaceMask_length k 0 false) hall, List.zip_cons_cons,
    fieldsLoop_cons_false, List.zip_cons_cons, fieldsLoop_cons_true]
  simp

/-! ## The override parser, one argument -/

theorem ContainsRune_iff (s : Str) (r : Nat) : ContainsRune s r = true ↔ r ∈ s := by
  simp [ContainsRune]

theorem ContainsRune_false_iff (s : Str) (r : Nat) : ContainsRune s r = false ↔ r ∉ s := by
  rw [← ContainsRune_iff]
  simp

theorem dropLastByte_of_mem (key : Str) (c : Nat) (h : c ∈ key) :
    dropLastByte key = .ok key.dropLast := by
  cases key with
  | nil => simp at h
  | cons a t => simp [dropLastByte]

/-- An argument without a field stops the program at `strings.Fields(arg)[0]`. -/
theorem classify_no_field (arg : Str) (h : Fields arg = []) :
    classify arg = .error Abort.indexOutOfRange := by
  simp [classify, h, index, Except.bind]

/-- An argument whose first field holds a `?` takes the query branch. -/
theorem classify_query (arg tok : Str) (hf : (Fields arg).head? = some tok)
    (hq : 0x3F ∈ tok) :
    classify arg =
      (index (SplitN arg sepQuery 2) 1).bind fun v => .ok (Kind.query, tok.dropLast, v) := by
  have h1 : ContainsRune tok 0x3F = true := (ContainsRune_iff _ _).mpr hq
  simp [classify, index_of_head _ _ hf, Except.bind, h1, dropLastByte_of_mem _ _ hq]

/-- An argument whose first field holds a `:` and no `?` takes the header
branch. -/
theorem classify_header (arg tok : Str) (hf : (Fields arg).head? = some tok)
    (hq : 0x3F ∉ tok) (hc : 0x3A ∈ tok) :
    classify arg =
      (index (SplitN arg sepHeader 2) 1).bind fun v => .ok (Kind.header, tok.dropLast, v) := by
  have h1 : ContainsRune tok 0x3F = false := (ContainsRune_false_iff _ _).mpr hq
  have h2 : ContainsRune tok 0x3A = true := (ContainsRune_iff _ _).mpr hc
  simp [classify, index_of_head _ _ hf, Except.bind, h1, h2, dropLastByte_of_mem _ _ hc]

/-- An argument whose first field holds neither `?` nor `:` reaches `fatal`. -/
theorem classify_fatal (arg tok : Str) (hf : (Fields arg).head? = some tok)
    (hq : 0x3F ∉ tok) (hc : 0x3A ∉ tok) :
    classify arg = .error (Abort.fatal invalidFormat) := by
  have h1 : ContainsRune tok 0x3F = false := (ContainsRune_false_iff _ _).mpr hq
  have h2 : ContainsRune tok 0x3A = false := (ContainsRune_false_iff _ _).mpr hc
  simp [classify, index_of_head _ _ hf, Except.bind, h1, h2]

theorem ne_nil_of_head_fields (arg tok : Str) (hf : (Fields arg).head? = some tok) :
    arg ≠ [] := by
  intro e
  subst e
  simp [Fields, fieldsLoop, spaceMask] at hf

/-- The value of an argument that holds the separator is taken without a
panic. -/
theorem index_split_isOk (arg a b : Str) (c : Nat) (sep : Str)
    (h : arg = a ++ c :: (sep ++ b)) :
    ∃ v, index (SplitN arg (c :: sep) 2) 1 = .ok v := by
  have hne : arg ≠ [] := by
    rw [h]
    cases a <;> simp
  have hs := Cut_isSome c sep a b
  rw [SplitN_two _ _ hne, h]
  cases hc : Cut (c :: sep) (a ++ c :: (sep ++ b)) with
  | none => rw [hc] at hs; exact absurd hs (by simp)
  | some p => exact ⟨p.2, rfl⟩

theorem mem_of_getLast? (tok : Str) (c : Nat) (h : tok.getLast? = some c) : c ∈ tok :=
  List.mem_of_getLast?_eq_some h

theorem eq_dropLast_append (tok : Str) (c : Nat) (h : tok.getLast? = some c) :
    tok = tok.dropLast ++ [c] := by
  cases hne : tok with
  | nil => rw [hne] at h; simp at h
  | cons a t =>
    have hne' : a :: t ≠ [] := by simp
    rw [hne] at h
    rw [List.getLast?_eq_getLast _ hne'] at h
    simp only [Option.some.injEq] at h
    rw [← h]
    exact (List.dropLast_append_getLast hne').symm

/-! ## The override parser, the loop -/

theorem parseArg_eq (os : OverrideSet) (arg : Str) :
    parseArg os arg = (classify arg).bind fun r => .ok (assign os r) := by
  unfold parseArg
  cases classify arg with
  | error e => rfl
  | ok r =>
    obtain ⟨kind, key, v⟩ := r
    cases kind <;> rfl

theorem foldlM_parseArg_cons (os : OverrideSet) (arg : Str) (args : List Str) :
    List.foldlM parseArg os (arg :: args) =
      (parseArg os arg).bind fun os' => List.foldlM parseArg os' args := by
  rw [List.foldlM_cons]
  rfl

/-- The loop returns an override set when every argument is classified. -/
theorem foldlM_parseArg_isOk (args : List Str)
    (h : ∀ arg ∈ args, ∃ r, classify arg = .ok r) (os : OverrideSet) :
    ∃ os', List.foldlM parseArg os args = .ok os' := by
  induction args generalizing os with
  | nil => exact ⟨os, rfl⟩
  | cons arg args ih =>
    obtain ⟨r, hr⟩ := h arg (by simp)
    rw [foldlM_parseArg_cons, parseArg_eq, hr]
    exact ih (fun a ha => h a (by simp [ha])) (assign os r)

/-- The loop stops at the first argument that is not classified, with the
abort of that argument. -/
theorem foldlM_parseArg_abort (pre : List Str) (arg : Str) (post : List Str) (e : Abort)
    (hpre : ∀ a ∈ pre, ∃ r, classify a = .ok r) (harg : classify arg = .error e)
    (os : OverrideSet) :
    List.foldlM parseArg os (pre ++ arg :: post) = .error e := by
  induction pre generalizing os with
  | nil =>
    rw [List.nil_append, foldlM_parseArg_cons, parseArg_eq, harg]
    rfl
  | cons a pre ih =>
    obtain ⟨r, hr⟩ := hpre a (by simp)
    rw [List.cons_append, foldlM_parseArg_cons, parseArg_eq, hr]
    exact ih (fun x hx => hpre x (by simp [hx])) (assign os r)

/-- An argument of the shape of C10 is classified. -/
theorem classify_isOk (arg tok : Str) (hf : firstFieldThenSpace arg tok)
    (ht : tok.getLast? = some 0x3F ∨ (0x3F ∉ tok ∧ tok.getLast? = some 0x3A)) :
    ∃ kind v, index (Fields arg) 0 = .ok tok ∧ dropLastByte tok = .ok tok.dropLast ∧
      index (SplitN arg (if kind = Kind.query then sepQuery else sepHeader) 2) 1 = .ok v ∧
      classify arg = .ok (kind, tok.dropLast, v) := by
  obtain ⟨hhead, pre, rest, _, harg⟩ := hf
  rcases ht with hq | ⟨hnq, hc⟩
  · have hmem := mem_of_getLast? tok _ hq
    have hform : arg = (pre ++ tok.dropLast) ++ 0x3F :: ([0x20] ++ rest) := by
      rw [harg]
      nth_rewrite 1 [eq_dropLast_append tok _ hq]
      simp
    obtain ⟨v, hv⟩ := index_split_isOk arg _ _ 0x3F [0x20] hform
    refine ⟨Kind.query, v, index_of_head _ _ hhead, dropLastByte_of_mem _ _ hmem, ?_, ?_⟩
    · simpa [sepQuery] using hv
    · rw [classify_query arg tok hhead hmem]
      have hv' : index (SplitN arg sepQuery 2) 1 = .ok v := hv
      rw [hv']
      rfl
  · have hmem := mem_of_getLast? tok _ hc
    have hform : arg = (pre ++ tok.dropLast) ++ 0x3A :: ([0x20] ++ rest) := by
      rw [harg]
      nth_rewrite 1 [eq_dropLast_append tok _ hc]
      simp
    obtain ⟨v, hv⟩ := index_split_isOk arg _ _ 0x3A [0x20] hform
    refine ⟨Kind.header, v, index_of_head _ _ hhead, dropLastByte_of_mem _ _ hmem, ?_, ?_⟩
    · simpa [sepHeader] using hv
    · rw [classify_header arg tok hhead hnq hmem]
      have hv' : index (SplitN arg sepHeader 2) 1 = .ok v := hv
      rw [hv']
      rfl

/-- The classification of `k ++ c ++ " " ++ v` for a key `k` free of white
space and of the byte `c`: the key is `k`, the value is `v`. -/
theorem split_value (k v : Str) (c : Nat) (hk : c ∉ k) :
    index (SplitN (k ++ c :: 0x20 :: v) [c, 0x20] 2) 1 = .ok v := by
  have hne : k ++ c :: 0x20 :: v ≠ [] := by cases k <;> simp
  have hcut := Cut_first c [0x20] k v hk
  simp only [List.singleton_append] at hcut
  rw [SplitN_two _ _ hne, hcut]
  rfl

theorem classify_header_arg (k v : Str) (hs : hasSpace k = false) (hq : 0x3F ∉ k)
    (hc : 0x3A ∉ k) : classify (k ++ sepHeader ++ v) = .ok (Kind.header, k, v) := by
  have harg : k ++ sepHeader ++ v = k ++ 0x3A :: 0x20 :: v := by simp [sepHeader]
  have hf := Fields_first k 0x3A (by decide) (by decide) v hs
  rw [harg, classify_header _ _ hf (by simp [hq]) (by simp)]
  have hv := split_value k v 0x3A hc
  have hv' : index (SplitN (k ++ 0x3A :: 0x20 :: v) sepHeader 2) 1 = .ok v := hv
  rw [hv']
  simp [Except.bind]

theorem classify_query_arg (k v : Str) (hs : hasSpace k = false) (hq : 0x3F ∉ k) :
    classify (k ++ sepQuery ++ v) = .ok (Kind.query, k, v) := by
  have harg : k ++ sepQuery ++ v = k ++ 0x3F :: 0x20 :: v := by simp [sepQuery]
  have hf := Fields_first k 0x3F (by decide) (by decide) v hs
  rw [harg, classify_query _ _ hf (by simp)]
  have hv := split_value k v 0x3F hq
  have hv' : index (SplitN (k ++ 0x3F :: 0x20 :: v) sepQuery 2) 1 = .ok v := hv
  rw [hv']
  simp [Except.bind]

theorem parseOverrides_append_singleton (l : List Str) (a : Str) :
    parseOverrides (l ++ [a]) = (parseOverrides l).bind fun os => parseArg os a := by
  unfold parseOverrides
  rw [List.foldlM_append]
  cases List.foldlM parseArg { queries := [], headers := [] } l with
  | error e => rfl
  | ok os =>
    show List.foldlM parseArg os [a] = parseArg os a
    rw [foldlM_parseArg_cons]
    cases parseArg os a <;> rfl

theorem lastValue_append_singleton (kind : Kind) (k : Str) (l : List Str) (a : Str) :
    lastValue kind k (l ++ [a]) = (valueFor kind k a).or (lastValue kind k l) := by
  unfold lastValue
  rw [List.filterMap_append, List.getLast?_append]
  cases h : valueFor kind k a with
  | none => simp [List.filterMap, h]
  | some v => simp [List.filterMap, h]

/-- Last write wins, per mapping: in the override set that the parser returns,
a key holds the value of the last argument filed under it in that mapping. -/
theorem parse_get_lastValue (args : List Str) (os : OverrideSet)
    (h : parseOverrides args = .ok os) (k : Str) :
    os.headers.get k = lastValue Kind.header k args ∧
    os.queries.get k = lastValue Kind.query k args := by
  induction args using List.reverseRecOn generalizing os with
  | nil =>
    have : os = { queries := [], headers := [] } := by
      have h' : (Except.ok { queries := [], headers := [] } : Except Abort OverrideSet) =
          .ok os := h
      exact (Except.ok.inj h').symm
    subst this
    exact ⟨rfl, rfl⟩
  | append_singleton l a ih =>
    rw [parseOverrides_append_singleton] at h
    cases hl : parseOverrides l with
    | error e => rw [hl] at h; exact absurd h (by simp [Except.bind])
    | ok os1 =>
      rw [hl] at h
      change parseArg os1 a = .ok os at h
      rw [parseArg_eq] at h
      cases hc : classify a with
      | error e => rw [hc] at h; exact absurd h (by simp [Except.bind])
      | ok r =>
        rw [hc] at h
        have hos : os = assign os1 r := (Except.ok.inj h).symm
        obtain ⟨ih1, ih2⟩ := ih os1 hl
        obtain ⟨kind, k', v⟩ := r
        rw [lastValue_append_singleton, lastValue_append_singleton, ← ih1, ← ih2, hos]
        cases kind with
        | query =>
          by_cases e : k' = k
          · subst e
            simp [valueFor, hc, assign, GoMap.get_set_self]
          · simp [valueFor, hc, assign, e, GoMap.get_set_ne _ _ _ _ e]
        | header =>
          by_cases e : k' = k
          · subst e
            simp [valueFor, hc, assign, GoMap.get_set_self]
          · simp [valueFor, hc, assign, e, GoMap.get_set_ne _ _ _ _ e]

/-! ## `net/url`: parsing an encoded query -/

theorem upperhex_spec (n : Nat) (h : n < 16) :
    ishex (upperhex n) = true ∧ unhex (upperhex n) = n ∧
      upperhex n ≠ 0x26 ∧ upperhex n ≠ 0x3B ∧ upperhex n ≠ 0x3D := by
  interval_cases n <;> decide

theorem shouldEscape_of_reserved (c : Nat)
    (h : c = 0x25 ∨ c = 0x2B ∨ c = 0x26 ∨ c = 0x3B ∨ c = 0x3D) : shouldEscape c = true := by
  rcases h with rfl | rfl | rfl | rfl | rfl <;> decide

theorem QueryUnescape_percent (h1 h2 : Nat) (t : Str) :
    QueryUnescape (0x25 :: h1 :: h2 :: t) =
      if ishex h1 && ishex h2 then
        (QueryUnescape t).map fun r => (unhex h1 * 16 + unhex h2) :: r
      else none := by
  rw [QueryUnescape.eq_def]
  simp

theorem QueryUnescape_plus (t : Str) :
    QueryUnescape (0x2B :: t) = (QueryUnescape t).map fun r => 0x20 :: r := by
  rw [QueryUnescape.eq_def]
  simp

theorem QueryUnescape_other (c : Nat) (t : Str) (h25 : ¬ c = 0x25) (h2B : ¬ c = 0x2B) :
    QueryUnescape (c :: t) = (QueryUnescape t).map fun r => c :: r := by
  rw [QueryUnescape.eq_def]
  simp [h25, h2B]

/-- Unescaping an escaped byte string gives the byte string. -/
theorem QueryUnescape_QueryEscape (s : Str) (hs : isBytes s) :
    QueryUnescape (QueryEscape s) = some s := by
  induction s with
  | nil => rfl
  | cons c t ih =>
    have hc : c < 256 := hs c (by simp)
    have ht : isBytes t := fun x hx => hs x (by simp [hx])
    have iht := ih ht
    rw [QueryEscape]
    by_cases h20 : c = 0x20
    · subst h20
      rw [if_pos rfl, QueryUnescape_plus, iht]
      rfl
    · rw [if_neg h20]
      by_cases hesc : shouldEscape c = true
      · rw [if_pos hesc]
        obtain ⟨h1, h2, -, -, -⟩ := upperhex_spec (c / 16) (by omega)
        obtain ⟨h3, h4, -, -, -⟩ := upperhex_spec (c % 16) (by omega)
        rw [QueryUnescape_percent, h1, h3, iht, h2, h4]
        simp only [Bool.and_self, if_true, Option.map_some']
        congr 2
        omega
      · rw [if_neg hesc]
        have h25 : ¬ c = 0x25 := fun e => hesc (shouldEscape_of_reserved c (by simp [e]))
        have h2B : ¬ c = 0x2B := fun e => hesc (shouldEscape_of_reserved c (by simp [e]))
        rw [QueryUnescape_other c _ h25 h2B, iht]
        rfl

/-- An escaped byte string holds no `&`, `;` or `=`. -/
theorem QueryEscape_clean (s : Str) (hs : isBytes s) :
    ∀ x ∈ QueryEscape s, x ≠ 0x26 ∧ x ≠ 0x3B ∧ x ≠ 0x3D := by
  induction s with
  | nil => simp [QueryEscape]
  | cons c t ih =>
    have hc : c < 256 := hs c (by simp)
    have ht : isBytes t := fun x hx => hs x (by simp [hx])
    have iht := ih ht
    rw [QueryEscape]
    by_cases h20 : c = 0x20
    · subst h20
      intro x hx
      simp only [if_true, List.mem_cons] at hx
      rcases hx with rfl | hx
      · decide
      · exact iht x hx
    · rw [if_neg h20]
      by_cases hesc : shouldEscape c = true
      · rw [if_pos hesc]
        obtain ⟨-, -, a1, a2, a3⟩ := upperhex_spec (c / 16) (by omega)
        obtain ⟨-, -, b1, b2, b3⟩ := upperhex_spec (c % 16) (by omega)
        intro x hx
        simp only [List.mem_cons] at hx
        rcases hx with rfl | rfl | rfl | hx
        · decide
        · exact ⟨a1, a2, a3⟩
        · exact ⟨b1, b2, b3⟩
        · exact iht x hx
      · rw [if_neg hesc]
        intro x hx
        simp only [List.mem_cons] at hx
        rcases hx with rfl | hx
        · refine ⟨fun e => hesc (shouldEscape_of_reserved x (by simp [e])),
            fun e => hesc (shouldEscape_of_reserved x (by simp [e])),
            fun e => hesc (shouldEscape_of_reserved x (by simp [e]))⟩
        · exact iht x hx

theorem splitByte_clean (sep : Nat) (s : Str) (h : sep ∉ s) : splitByte sep s = [s] := by
  induction s with
  | nil => rfl
  | cons c t ih =>
    simp only [List.mem_cons, not_or] at h
    have hc : ¬ c = sep := fun e => h.1 e.symm
    rw [splitByte, if_neg hc, ih h.2]

theorem splitByte_append (sep : Nat) (a b : Str) (h : sep ∉ a) :
    splitByte sep (a ++ sep :: b) = a :: splitByte sep b := by
  induction a with
  | nil => simp [splitByte]
  | cons c t ih =>
    simp only [List.mem_cons, not_or] at h
    have hc : ¬ c = sep := fun e => h.1 e.symm
    rw [List.cons_append, splitByte, if_neg hc, ih h.2]

theorem cutEq_append (a b : Str) (h : 0x3D ∉ a) : cutEq (a ++ 0x3D :: b) = (a, b) := by
  induction a with
  | nil => simp [cutEq]
  | cons c t ih =>
    simp only [List.mem_cons, not_or] at h
    have hc : ¬ c = 0x3D := fun e => h.1 e.symm
    rw [List.cons_append, cutEq, if_neg hc, ih h.2]

theorem encodePair_clean (p : Str × Str) (h1 : isBytes p.1) (h2 : isBytes p.2) :
    0x26 ∉ encodePair p ∧ 0x3B ∉ encodePair p ∧ encodePair p ≠ [] := by
  have c1 := QueryEscape_clean p.1 h1
  have c2 := QueryEscape_clean p.2 h2
  unfold encodePair
  refine ⟨?_, ?_, by simp⟩
  · intro hm
    simp only [List.append_assoc, List.singleton_append, List.mem_append, List.mem_cons] at hm
    rcases hm with hm | hm | hm
    · exact (c1 _ hm).1 rfl
    · exact absurd hm (by decide)
    · exact (c2 _ hm).1 rfl
  · intro hm
    simp only [List.append_assoc, List.singleton_append, List.mem_append, List.mem_cons] at hm
    rcases hm with hm | hm | hm
    · exact (c1 _ hm).2.1 rfl
    · exact absurd hm (by decide)
    · exact (c2 _ hm).2.1 rfl

/-- Parsing the text of one pair appends the value of the pair to the values
of its key. -/
theorem parseSetting_encodePair (m : Values) (p : Str × Str) (h1 : isBytes p.1)
    (h2 : isBytes p.2) : parseSetting m (encodePair p) = addPair m p := by
  obtain ⟨_, c2, c3⟩ := encodePair_clean p h1 h2
  have hsemi : ContainsRune (encodePair p) 0x3B = false := (ContainsRune_false_iff _ _).mpr c2
  have hcut : cutEq (encodePair p) = (QueryEscape p.1, QueryEscape p.2) := by
    unfold encodePair
    rw [List.append_assoc, List.singleton_append]
    exact cutEq_append _ _ (fun hm => (QueryEscape_clean p.1 h1 _ hm).2.2 rfl)
  unfold parseSetting
  rw [hsemi, hcut]
  simp only [Bool.false_eq_true, if_false, c3, QueryUnescape_QueryEscape _ h1,
    QueryUnescape_QueryEscape _ h2]
  rfl

theorem foldl_writePair (ps : List (Str × Str)) (buf : Str) (h : buf ≠ []) :
    ps.foldl writePair buf = buf ++ ps.flatMap fun p => 0x26 :: encodePair p := by
  induction ps generalizing buf with
  | nil => simp
  | cons p ps ih =>
    have hne : writePair buf p ≠ [] := by
      unfold writePair
      simp [h]
    rw [List.foldl_cons, ih _ hne]
    unfold writePair
    simp [h]

theorem splitByte_segments (ps : List (Str × Str)) (a : Str) (ha : 0x26 ∉ a)
    (hps : ∀ p ∈ ps, isBytes p.1 ∧ isBytes p.2) :
    splitByte 0x26 (a ++ ps.flatMap fun p => 0x26 :: encodePair p) =
      a :: ps.map encodePair := by
  induction ps generalizing a with
  | nil => simpa using splitByte_clean 0x26 a ha
  | cons p ps ih =>
    have hp := hps p (by simp)
    have hclean := (encodePair_clean p hp.1 hp.2).1
    rw [List.flatMap_cons, List.cons_append, splitByte_append _ _ _ ha,
      ih _ hclean (fun q hq => hps q (by simp [hq]))]
    rfl

/-- Parsing an encoded list of pairs appends the pairs, in order, to the empty
map. -/
theorem ParseQuery_foldl_writePair (ps : List (Str × Str))
    (hps : ∀ p ∈ ps, isBytes p.1 ∧ isBytes p.2) :
    ParseQuery (ps.foldl writePair []) = ps.foldl addPair [] := by
  cases ps with
  | nil => rfl
  | cons p ps =>
    have hp := hps p (by simp)
    obtain ⟨c1, _, c3⟩ := encodePair_clean p hp.1 hp.2
    have hfirst : writePair [] p = encodePair p := by simp [writePair]
    unfold ParseQuery
    rw [List.foldl_cons, hfirst, foldl_writePair _ _ c3,
      splitByte_segments ps _ c1 (fun q hq => hps q (by simp [hq])), ← List.map_cons,
      List.foldl_map]
    generalize ([] : Values) = m0
    have hall : ∀ q ∈ p :: ps, isBytes q.1 ∧ isBytes q.2 := hps
    generalize p :: ps = qs at hall
    induction qs generalizing m0 with
    | nil => rfl
    | cons q qs ih =>
      have hq := hall q (by simp)
      rw [List.foldl_cons, List.foldl_cons, parseSetting_encodePair _ _ hq.1 hq.2]
      exact ih _ (fun x hx => hall x (by simp [hx]))

/-- Reading a map built by appending pairs: the values already there, then the
values of the pairs with that key, in order. -/
theorem get_foldl_addPair (ps : List (Str × Str)) (m : Values) (k : Str) :
    (ps.foldl addPair m).get k =
      if ps.filter (fun p => p.1 = k) = [] then m.get k
      else some ((m.get k).getD [] ++ (ps.filter (fun p => p.1 = k)).map Prod.snd) := by
  induction ps generalizing m with
  | nil => simp
  | cons p ps ih =>
    rw [List.foldl_cons, ih]
    by_cases e : p.1 = k
    · have hget : (addPair m p).get k = some ((m.get k).getD [] ++ [p.2]) := by
        unfold addPair
        rw [e, GoMap.get_set_self]
      have hf : List.filter (fun p => decide (p.1 = k)) (p :: ps) =
          p :: List.filter (fun p => decide (p.1 = k)) ps := by
        simp [List.filter_cons, e]
      rw [hget, hf]
      by_cases hnil : List.filter (fun p => decide (p.1 = k)) ps = []
      · simp [hnil]
      · simp [hnil]
    · have hget : (addPair m p).get k = m.get k := by
        unfold addPair
        exact GoMap.get_set_ne _ _ _ _ e
      have hf : List.filter (fun p => decide (p.1 = k)) (p :: ps) =
          List.filter (fun p => decide (p.1 = k)) ps := by
        simp [List.filter_cons, e]
      rw [hget, hf]

theorem GoMap.get_mem {V : Type} (m : GoMap V) (k : Str) (v : V) (h : m.get k = some v) :
    (k, v) ∈ m := by
  induction m with
  | nil => simp [GoMap.get] at h
  | cons p m ih =>
    obtain ⟨k0, v0⟩ := p
    by_cases e : k0 = k
    · simp only [GoMap.get, e, if_true, Option.some.injEq] at h
      simp [e, h]
    · simp only [GoMap.get, e, if_false] at h
      exact List.mem_cons_of_mem _ (ih h)

theorem GoMap.mem_set {V : Type} (m : GoMap V) (k : Str) (v : V) (p : Str × V)
    (h : p ∈ m.set k v) : p = (k, v) ∨ p ∈ m := by
  induction m with
  | nil => left; simpa [GoMap.set] using h
  | cons q m ih =>
    obtain ⟨k0, v0⟩ := q
    by_cases e : k0 = k
    · simp only [GoMap.set, e, if_true, List.mem_cons] at h
      rcases h with h | h
      · exact Or.inl h
      · exact Or.inr (List.mem_cons_of_mem _ h)
    · simp only [GoMap.set, e, if_false, List.mem_cons] at h
      rcases h with h | h
      · exact Or.inr (by simp [h])
      · rcases ih h with h' | h'
        · exact Or.inl h'
        · exact Or.inr (List.mem_cons_of_mem _ h')

/-- The values written for the key `k`, in order, are the values of `k`. -/
theorem filter_flatMap_keys (f : Str → List Str) (l : List Str) (hl : l.Nodup) (k : Str) :
    ((l.flatMap fun k' => (f k').map fun x => (k', x)).filter (fun p => p.1 = k)).map
      Prod.snd = if k ∈ l then f k else [] := by
  induction l with
  | nil => simp
  | cons a l ih =>
    have hnd := List.nodup_cons.mp hl
    rw [List.flatMap_cons, List.filter_append, List.map_append, ih hnd.2]
    by_cases e : a = k
    · subst e
      have hall : List.filter (fun p : Str × Str => decide (p.1 = a))
          ((f a).map fun x => (a, x)) = (f a).map fun x => (a, x) := by
        rw [List.filter_eq_self]
        intro p hp
        simp only [List.mem_map] at hp
        obtain ⟨x, _, rfl⟩ := hp
        simp
      rw [hall]
      simp [hnd.1, Function.comp_def]
    · have hnone : List.filter (fun p : Str × Str => decide (p.1 = k))
          ((f a).map fun x => (a, x)) = [] := by
        rw [List.filter_eq_nil_iff]
        intro p hp
        simp only [List.mem_map] at hp
        obtain ⟨x, _, rfl⟩ := hp
        simp [e]
      have hk : ¬ k = a := fun h => e h.symm
      rw [hnone]
      simp [hk]

/-- The pairs that `Values.Encode` writes for the key `k` carry the values of
`k`, in their order. -/
theorem encodePairs_filter (m : Values) (hm : GoMap.WF m) (k : Str) :
    ((encodePairs m).filter (fun p => p.1 = k)).map Prod.snd = (m.get k).getD [] := by
  have hperm := List.perm_insertionSort (fun a b => strLe a b = true) (m.map Prod.fst)
  have hnd : (List.insertionSort (fun a b => strLe a b = true) (m.map Prod.fst)).Nodup :=
    hperm.nodup_iff.mpr hm
  unfold encodePairs
  rw [filter_flatMap_keys (fun k' => (m.get k').getD []) _ hnd k]
  split
  · rfl
  · rename_i hk
    have hk' : k ∉ m.map Prod.fst := fun h => hk (hperm.mem_iff.mpr h)
    rw [GoMap.get_eq_none m k hk']
    rfl

/-- Parsing the encoding of good query parameters gives them back, key by
key. -/
theorem ParseQuery_Encode (m : Values) (hm : Values.Good m) (k : Str) :
    (ParseQuery (Values.Encode m)).get k = m.get k := by
  obtain ⟨hwf, hgood⟩ := hm
  have hbytes : ∀ p ∈ encodePairs m, isBytes p.1 ∧ isBytes p.2 := by
    intro p hp
    unfold encodePairs at hp
    simp only [List.mem_flatMap, List.mem_map] at hp
    obtain ⟨k', _, x, hx, rfl⟩ := hp
    cases hg : m.get k' with
    | none => rw [hg] at hx; simp at hx
    | some vs =>
      rw [hg] at hx
      have hmem := GoMap.get_mem m k' vs hg
      have := hgood _ hmem
      exact ⟨this.1, this.2.2 x hx⟩
  unfold Values.Encode
  rw [ParseQuery_foldl_writePair _ hbytes, get_foldl_addPair]
  have hf := encodePairs_filter m hwf k
  cases hg : m.get k with
  | none =>
    rw [hg] at hf
    have hnil : List.filter (fun p => decide (p.1 = k)) (encodePairs m) = [] := by
      simpa using hf
    rw [if_pos hnil]
    rfl
  | some vs =>
    rw [hg] at hf
    have hne : vs ≠ [] := (hgood _ (GoMap.get_mem m k vs hg)).2.1
    have hnn : ¬ List.filter (fun p => decide (p.1 = k)) (encodePairs m) = [] := by
      intro h
      rw [h] at hf
      exact hne (by simpa using hf.symm)
    rw [if_neg hnn, hf]
    rfl

/-! ## Query parameters stay good -/

theorem Values.good_set (m : Values) (k : Str) (vs : List Str) (hm : Values.Good m)
    (hk : isBytes k) (hne : vs ≠ []) (hvs : ∀ v ∈ vs, isBytes v) :
    Values.Good (m.set k vs) := by
  refine ⟨GoMap.wf_set m k vs hm.1, ?_⟩
  intro p hp
  rcases GoMap.mem_set m k vs p hp with rfl | hp'
  · exact ⟨hk, hne, hvs⟩
  · exact hm.2 p hp'

theorem unhex_le (c : Nat) : unhex c ≤ 15 := by
  unfold unhex
  split_ifs <;> omega

theorem QueryUnescape_bytes (s r : Str) (hs : isBytes s) (h : QueryUnescape s = some r) :
    isBytes r := by
  induction s using QueryUnescape.induct generalizing r with
  | case1 =>
    rw [QueryUnescape.eq_def] at h
    simp only [Option.some.injEq] at h
    subst h
    intro x hx
    simp at hx
  | case2 h1 h2 t hhex ih =>
    rw [QueryUnescape_percent, if_pos hhex] at h
    cases hq : QueryUnescape t with
    | none => rw [hq] at h; simp at h
    | some r' =>
      rw [hq] at h
      simp only [Option.map_some', Option.some.injEq] at h
      subst h
      have ht : isBytes t := fun x hx => hs x (by simp [hx])
      have := ih r' ht hq
      intro x hx
      simp only [List.mem_cons] at hx
      rcases hx with rfl | hx
      · have a1 := unhex_le h1
        have a2 := unhex_le h2
        omega
      · exact this x hx
  | case3 h1 h2 t hhex =>
    rw [QueryUnescape_percent, if_neg hhex] at h
    simp at h
  | case4 t hshape =>
    rw [QueryUnescape.eq_def] at h
    simp only [if_true] at h
    exact absurd h (by simp)
  | case5 t h25 ih =>
    rw [QueryUnescape_plus] at h
    cases hq : QueryUnescape t with
    | none => rw [hq] at h; simp at h
    | some r' =>
      rw [hq] at h
      simp only [Option.map_some', Option.some.injEq] at h
      subst h
      have ht : isBytes t := fun x hx => hs x (by simp [hx])
      have := ih r' ht hq
      intro x hx
      simp only [List.mem_cons] at hx
      rcases hx with rfl | hx
      · decide
      · exact this x hx
  | case6 c t h25 h2B ih =>
    rw [QueryUnescape_other c t h25 h2B] at h
    cases hq : QueryUnescape t with
    | none => rw [hq] at h; simp at h
    | some r' =>
      rw [hq] at h
      simp only [Option.map_some', Option.some.injEq] at h
      subst h
      have ht : isBytes t := fun x hx => hs x (by simp [hx])
      have := ih r' ht hq
      intro x hx
      simp only [List.mem_cons] at hx
      rcases hx with rfl | hx
      · exact hs x (by simp)
      · exact this x hx

theorem cutEq_bytes (s : Str) (hs : isBytes s) :
    isBytes (cutEq s).1 ∧ isBytes (cutEq s).2 := by
  induction s with
  | nil => exact ⟨fun x hx => by simp [cutEq] at hx, fun x hx => by simp [cutEq] at hx⟩
  | cons c t ih =>
    have ht : isBytes t := fun x hx => hs x (by simp [hx])
    have hc : c < 256 := hs c (by simp)
    rw [cutEq]
    by_cases e : c = 0x3D
    · rw [if_pos e]
      exact ⟨fun x hx => by simp at hx, ht⟩
    · rw [if_neg e]
      refine ⟨?_, (ih ht).2⟩
      intro x hx
      simp only [List.mem_cons] at hx
      rcases hx with rfl | hx
      · exact hc
      · exact (ih ht).1 x hx

theorem splitByte_bytes (sep : Nat) (s : Str) (hs : isBytes s) :
    ∀ seg ∈ splitByte sep s, isBytes seg := by
  induction s with
  | nil =>
    intro seg hseg
    simp only [splitByte, List.mem_singleton] at hseg
    subst hseg
    intro x hx
    simp at hx
  | cons c t ih =>
    have ht : isBytes t := fun x hx => hs x (by simp [hx])
    have hc : c < 256 := hs c (by simp)
    have iht := ih ht
    rw [splitByte]
    by_cases e : c = sep
    · rw [if_pos e]
      intro seg hseg
      simp only [List.mem_cons] at hseg
      rcases hseg with rfl | hseg
      · intro x hx
        simp at hx
      · exact iht seg hseg
    · rw [if_neg e]
      cases hsp : splitByte sep t with
      | nil =>
        intro seg hseg
        simp only [List.mem_singleton] at hseg
        subst hseg
        intro x hx
        simp only [List.mem_singleton] at hx
        subst hx
        exact hc
      | cons y ys =>
        rw [hsp] at iht
        intro seg hseg
        simp only [List.mem_cons] at hseg
        rcases hseg with rfl | hseg
        · intro x hx
          simp only [List.mem_cons] at hx
          rcases hx with rfl | hx
          · exact hc
          · exact iht y (by simp) x hx
        · exact iht seg (by simp [hseg])

theorem Values.good_get (m : Values) (hm : Values.Good m) (k : Str) :
    ∀ v ∈ (m.get k).getD [], isBytes v := by
  cases hg : m.get k with
  | none => intro v hv; simp at hv
  | some vs =>
    intro v hv
    exact (hm.2 _ (GoMap.get_mem m k vs hg)).2.2 v hv

theorem parseSetting_good (m : Values) (seg : Str) (hm : Values.Good m) (hs : isBytes seg) :
    Values.Good (parseSetting m seg) := by
  unfold parseSetting
  split
  · exact hm
  · split
    · exact hm
    · split
      · rename_i key value hk hv
        have hb := cutEq_bytes seg hs
        have hkey := QueryUnescape_bytes _ _ hb.1 hk
        have hval := QueryUnescape_bytes _ _ hb.2 hv
        refine Values.good_set m key _ hm hkey (by simp) ?_
        intro v hv'
        simp only [List.mem_append, List.mem_singleton] at hv'
        rcases hv' with hv' | rfl
        · exact Values.good_get m hm key v hv'
        · exact hval
      · exact hm

/-- The parameters parsed from a query string are good. -/
theorem ParseQuery_good (raw : Str) (hraw : isBytes raw) : Values.Good (ParseQuery raw) := by
  have hsegs := splitByte_bytes 0x26 raw hraw
  unfold ParseQuery
  have h0 : Values.Good ([] : Values) :=
    ⟨List.nodup_nil, fun p hp => by simp at hp⟩
  generalize ([] : Values) = m0 at h0
  generalize splitByte 0x26 raw = segs at hsegs
  induction segs generalizing m0 with
  | nil => exact h0
  | cons seg segs ih =>
    rw [List.foldl_cons]
    exact ih _ (parseSetting_good m0 seg h0 (hsegs seg (by simp)))
      (fun x hx => hsegs x (by simp [hx]))

/-- Overriding good parameters with byte strings leaves them good. -/
theorem override_good (target : Values) (m : GoMap Str) (ht : Values.Good target)
    (hm : ∀ p ∈ m, isBytes p.1 ∧ isBytes p.2) : Values.Good (override target m) := by
  unfold override
  induction m generalizing target with
  | nil => exact ht
  | cons p m ih =>
    have hp := hm p (by simp)
    rw [List.foldl_cons]
    refine ih _ (Values.good_set target p.1 [p.2] ht hp.1 (by simp) ?_)
      (fun x hx => hm x (by simp [hx]))
    intro v hv
    simp only [List.mem_singleton] at hv
    subst hv
    exact hp.2

theorem parseSetting_wf (m : Values) (seg : Str) (hm : GoMap.WF m) :
    GoMap.WF (parseSetting m seg) := by
  unfold parseSetting
  split
  · exact hm
  · split
    · exact hm
    · split
      · exact GoMap.wf_set _ _ _ hm
      · exact hm

theorem ParseQuery_wf (raw : Str) : GoMap.WF (ParseQuery raw) := by
  unfold ParseQuery
  have h0 : GoMap.WF ([] : Values) := List.nodup_nil
  generalize ([] : Values) = m0 at h0
  generalize splitByte 0x26 raw = segs
  induction segs generalizing m0 with
  | nil => exact h0
  | cons seg segs ih =>
    rw [List.foldl_cons]
    exact ih _ (parseSetting_wf m0 seg h0)

theorem override_wf (target : Values) (m : GoMap Str) (ht : GoMap.WF target) :
    GoMap.WF (override target m) := by
  unfold override
  induction m generalizing target with
  | nil => exact ht
  | cons p m ih =>
    rw [List.foldl_cons]
    exact ih _ (GoMap.wf_set _ _ _ ht)

/-! ## The request materializer -/

/-- The request after the scheme, host, header and query patches, before the
body substitute is looked at. -/
theorem materialize_eq (req : Request) (proto : Str) (os : OverrideSet) (subBody : Str)
    (b64 : Bool) :
    materialize req proto os subBody b64 =
      if subBody ≠ [] then
        if b64 then
          match DecodeString subBody with
          | none => .error (Abort.fatal decodeFailed)
          | some buf =>
            .ok { Method := req.Method
                  URL := { Scheme := proto, Host := req.Host, Path := req.URL.Path,
                           RawQuery := Values.Encode (queryValues req os) }
                  Proto := req.Proto
                  Header := override req.Header os.headers
                  Body := buf
                  Host := req.Host
                  RequestURI := [] }
        else
          .ok { Method := req.Method
                URL := { Scheme := proto, Host := req.Host, Path := req.URL.Path,
                         RawQuery := Values.Encode (queryValues req os) }
                Proto := req.Proto
                Header := override req.Header os.headers
                Body := subBody
                Host := req.Host
                RequestURI := [] }
      else
        .ok { Method := req.Method
              URL := { Scheme := proto, Host := req.Host, Path := req.URL.Path,
                       RawQuery := Values.Encode (queryValues req os) }
              Proto := req.Proto
              Header := override req.Header os.headers
              Body := req.Body
              Host := req.Host
              RequestURI := [] } := by
  unfold materialize queryValues URL.Query
  split
  · split
    · split <;> rfl
    · rfl
  · rfl

/-! ## Base64: decoding an encoding -/

theorem decodeMap_encodeStd (i : Nat) (hi : i < 64) : decodeMap (encodeStd i) = i := by
  unfold encodeStd decodeMap
  split_ifs <;> omega

theorem decodeLoop_sextet0 (i : Nat) (hi : i < 64) (t : Str) :
    decodeLoop (encodeStd i :: t) [] = decodeLoop t [i] := by
  have h1 : decodeMap (encodeStd i) = i := decodeMap_encodeStd i hi
  have h3 : ¬ i = 255 := by omega
  simp [decodeLoop, h1, h3]

theorem decodeLoop_sextet1 (i : Nat) (hi : i < 64) (t : Str) (d0 : Nat) :
    decodeLoop (encodeStd i :: t) [d0] = decodeLoop t [d0, i] := by
  have h1 : decodeMap (encodeStd i) = i := decodeMap_encodeStd i hi
  have h3 : ¬ i = 255 := by omega
  simp [decodeLoop, h1, h3]

theorem decodeLoop_sextet2 (i : Nat) (hi : i < 64) (t : Str) (d0 d1 : Nat) :
    decodeLoop (encodeStd i :: t) [d0, d1] = decodeLoop t [d0, d1, i] := by
  have h1 : decodeMap (encodeStd i) = i := decodeMap_encodeStd i hi
  have h3 : ¬ i = 255 := by omega
  simp [decodeLoop, h1, h3]

theorem decodeLoop_sextet3 (i : Nat) (hi : i < 64) (t : Str) (d0 d1 d2 : Nat) :
    decodeLoop (encodeStd i :: t) [d0, d1, d2] =
      (decodeLoop t []).map fun r =>
        quantumVal d0 d1 d2 i / 65536 % 256 ::
        quantumVal d0 d1 d2 i / 256 % 256 ::
        quantumVal d0 d1 d2 i % 256 :: r := by
  have h1 : decodeMap (encodeStd i) = i := decodeMap_encodeStd i hi
  have h3 : ¬ i = 255 := by omega
  simp [decodeLoop, h1, h3]

theorem decodeLoop_pad2 (d0 d1 : Nat) :
    decodeLoop [padChar, padChar] [d0, d1] = some [quantumVal d0 d1 0 0 / 65536 % 256] := by
  have h : decodeMap padChar = 0xFF := by decide
  have h10 : ¬ (padChar = 10 ∨ padChar = 13) := by decide
  rw [decodeLoop]
  simp only [h, ne_eq, not_true_eq_false, if_false, h10, skipNewlines]

theorem decodeLoop_pad1 (d0 d1 d2 : Nat) :
    decodeLoop [padChar] [d0, d1, d2] =
      some [quantumVal d0 d1 d2 0 / 65536 % 256, quantumVal d0 d1 d2 0 / 256 % 256] := by
  have h : decodeMap padChar = 0xFF := by decide
  have h10 : ¬ (padChar = 10 ∨ padChar = 13) := by decide
  rw [decodeLoop]
  simp only [h, ne_eq, not_true_eq_false, if_false, h10, skipNewlines]

theorem quantumVal_sextets (v : Nat) (hv : v < 16777216) :
    quantumVal (v / 262144 % 64) (v / 4096 % 64) (v / 64 % 64) (v % 64) = v := by
  unfold quantumVal
  omega

/-- Decoding the standard encoding of a byte string gives the byte string. -/
theorem decode_encode : ∀ b : Str, isBytes b → DecodeString (EncodeToString b) = some b
  | [], _ => rfl
  | [a], h => by
    have ha : a < 256 := h a (by simp)
    have e0 : a * 65536 / 262144 % 64 < 64 := Nat.mod_lt _ (by decide)
    have e1 : a * 65536 / 4096 % 64 < 64 := Nat.mod_lt _ (by decide)
    unfold DecodeString
    rw [EncodeToString, decodeLoop_sextet0 _ e0, decodeLoop_sextet1 _ e1, decodeLoop_pad2]
    unfold quantumVal
    refine congrArg some ?_
    congr 1
    omega
  | [a, b], h => by
    have ha : a < 256 := h a (by simp)
    have hb : b < 256 := h b (by simp)
    have e0 : (a * 65536 + b * 256) / 262144 % 64 < 64 := Nat.mod_lt _ (by decide)
    have e1 : (a * 65536 + b * 256) / 4096 % 64 < 64 := Nat.mod_lt _ (by decide)
    have e2 : (a * 65536 + b * 256) / 64 % 64 < 64 := Nat.mod_lt _ (by decide)
    unfold DecodeString
    rw [EncodeToString, decodeLoop_sextet0 _ e0, decodeLoop_sextet1 _ e1,
      decodeLoop_sextet2 _ e2, decodeLoop_pad1]
    unfold quantumVal
    refine congrArg some ?_
    congr 1
    · omega
    · congr 1
      omega
  | a :: b :: c :: rest, h => by
    have ha : a < 256 := h a (by simp)
    have hb : b < 256 := h b (by simp)
    have hc : c < 256 := h c (by simp)
    have hrest : isBytes rest := fun x hx => h x (by simp [hx])
    have ih := decode_encode rest hrest
    have e0 : (a * 65536 + b * 256 + c) / 262144 % 64 < 64 := Nat.mod_lt _ (by decide)
    have e1 : (a * 65536 + b * 256 + c) / 4096 % 64 < 64 := Nat.mod_lt _ (by decide)
    have e2 : (a * 65536 + b * 256 + c) / 64 % 64 < 64 := Nat.mod_lt _ (by decide)
    have e3 : (a * 65536 + b * 256 + c) % 64 < 64 := Nat.mod_lt _ (by decide)
    unfold DecodeString at ih ⊢
    rw [EncodeToString, decodeLoop_sextet0 _ e0, decodeLoop_sextet1 _ e1,
      decodeLoop_sextet2 _ e2, decodeLoop_sextet3 _ e3, ih,
      quantumVal_sextets _ (by omega)]
    simp only [Option.map_some']
    refine congrArg some ?_
    congr 1
    · omega
    · congr 1
      · omega
      · congr 1
        omega

theorem encode_ne_nil (b : Str) (h : b ≠ []) : EncodeToString b ≠ [] := by
  rcases b with _ | ⟨a, _ | ⟨b, _ | ⟨c, rest⟩⟩⟩
  · exact absurd rfl h
  · simp [EncodeToString]
  · simp [EncodeToString]
  · simp [EncodeToString]

/-- The two outcomes of the materializer: a base64 substitute that does not
decode stops the program; in every other case a request is resolved, with the
overridden headers and the patched URL. -/
theorem materialize_outcome (req : Request) (proto : Str) (os : OverrideSet) (subBody : Str)
    (b64 : Bool) :
    (subBody ≠ [] ∧ b64 = true ∧ DecodeString subBody = none ∧
        materialize req proto os subBody b64 = .error (Abort.fatal decodeFailed)) ∨
      ∃ r, materialize req proto os subBody b64 = .ok r ∧
        r.Header = override req.Header os.headers ∧
        r.URL = { Scheme := proto, Host := req.Host, Path := req.URL.Path,
                  RawQuery := Values.Encode (queryValues req os) } := by
  by_cases hs : subBody = []
  · refine Or.inr ?_
    rw [materialize_eq, if_neg (not_not.mpr hs)]
    exact ⟨_, rfl, rfl, rfl⟩
  · cases b64 with
    | false =>
      refine Or.inr ?_
      rw [materialize_eq, if_pos hs, if_neg (by decide)]
      exact ⟨_, rfl, rfl, rfl⟩
    | true =>
      cases hd : DecodeString subBody with
      | none =>
        refine Or.inl ⟨hs, rfl, rfl, ?_⟩
        rw [materialize_eq, if_pos hs, if_pos rfl, hd]
      | some buf =>
        refine Or.inr ?_
        rw [materialize_eq, if_pos hs, if_pos rfl, hd]
        exact ⟨_, rfl, rfl, rfl⟩

/-! ## The claims on the override parser -/

/-- C1 on the code: the single argument `a?b x? y` has the first word `a?b`,
which ends in `b`, yet the parser does not reach `fatal`: the word holds a `?`,
so the argument is filed as the query override `a?` with the value `y`.  And
before an argument without `?` or `:` an argument without separator stops the
program with a panic, not with the fatal message. -/
theorem first_word_with_inner_mark_is_accepted :
    (Fields (ascii "a?b x? y")).head? = some (ascii "a?b") ∧
    (ascii "a?b").getLast? = some 0x62 ∧
    parseOverrides [ascii "a?b x? y"] =
      .ok { queries := [(ascii "a?", ascii "y")], headers := [] } ∧
    (Fields (ascii "bar")).head? = some (ascii "bar") ∧
    parseOverrides [ascii "foo:", ascii "bar"] = .error Abort.indexOutOfRange := by
  decide

/-- What the code does in place of C1: an argument whose first word holds
neither `?` nor `:` ends the run with the fatal message, provided every
argument before it is classified. -/
theorem unmarked_word_is_fatal (pre : List Str) (arg tok : Str) (post : List Str)
    (hpre : ∀ a ∈ pre, ∃ r, classify a = .ok r) (hf : (Fields arg).head? = some tok)
    (hq : 0x3F ∉ tok) (hc : 0x3A ∉ tok) :
    parseOverrides (pre ++ arg :: post) = .error (Abort.fatal invalidFormat) :=
  foldlM_parseArg_abort pre arg post _ hpre (classify_fatal arg tok hf hq hc) _

/-- C2 on the code: the argument `foo:` is its own first word and ends in `:`,
yet the parser stops with the panic of `strings.SplitN(arg, ": ", 2)[1]`, the
split having one element only. -/
theorem word_alone_panics :
    (Fields (ascii "foo:")).head? = some (ascii "foo:") ∧
    SplitN (ascii "foo:") sepHeader 2 = [ascii "foo:"] ∧
    parseOverrides [ascii "foo:"] = .error Abort.indexOutOfRange := by
  decide

/-- C3 on the code: the first word of `X?Y: v` ends in `:` and is followed by
`": "`, yet no header override is recorded: the word holds a `?`, the query
branch is taken and its split on `"? "` panics; with a `"? "` further on
(`X?Y: v? w`) the argument is recorded as the query override `X?Y` with the
value `w`, and no header at all. -/
theorem header_word_with_question_mark_is_a_query :
    (Fields (ascii "X?Y: v")).head? = some (ascii "X?Y:") ∧
    parseOverrides [ascii "X?Y: v"] = .error Abort.indexOutOfRange ∧
    parseOverrides [ascii "X?Y: v? w"] =
      .ok { queries := [(ascii "X?Y", ascii "w")], headers := [] } := by
  decide

/-- C4: for every key `k` without white space, `?` and `:` and for every string
`v`, the argument `k ++ ": " ++ v` assigns `headers[k] = v` and the argument
`k ++ "? " ++ v` assigns `queries[k] = v`, the other map being left as it was;
parsed alone they give the one-entry maps.  Nothing is asked of `v`. -/
theorem value_is_everything_after_first_separator (k v : Str) (os : OverrideSet)
    (hs : hasSpace k = false) (hq : 0x3F ∉ k) (hc : 0x3A ∉ k) :
    parseArg os (k ++ sepHeader ++ v) =
      .ok { queries := os.queries, headers := os.headers.set k v } ∧
    (os.headers.set k v).get k = some v ∧
    parseArg os (k ++ sepQuery ++ v) =
      .ok { queries := os.queries.set k v, headers := os.headers } ∧
    (os.queries.set k v).get k = some v ∧
    parseOverrides [k ++ sepHeader ++ v] = .ok { queries := [], headers := [(k, v)] } ∧
    parseOverrides [k ++ sepQuery ++ v] = .ok { queries := [(k, v)], headers := [] } := by
  have h1 := classify_header_arg k v hs hq hc
  have h2 := classify_query_arg k v hs hq
  refine ⟨?_, GoMap.get_set_self _ _ _, ?_, GoMap.get_set_self _ _ _, ?_, ?_⟩
  · rw [parseArg_eq, h1]; rfl
  · rw [parseArg_eq, h2]; rfl
  · unfold parseOverrides
    rw [foldlM_parseArg_cons, parseArg_eq, h1]; rfl
  · unfold parseOverrides
    rw [foldlM_parseArg_cons, parseArg_eq, h2]; rfl

/-- The value `a: b? c: d` of the header `X-Key` is kept whole, and so is the
empty value. -/
theorem value_is_everything_after_first_separator_witness :
    hasSpace (ascii "X-Key") = false ∧ 0x3F ∉ ascii "X-Key" ∧ 0x3A ∉ ascii "X-Key" ∧
    parseOverrides [ascii "X-Key: a: b? c: d"] =
      .ok { queries := [], headers := [(ascii "X-Key", ascii "a: b? c: d")] } ∧
    parseOverrides [ascii "X-Key? "] = .ok { queries := [(ascii "X-Key", [])], headers := [] } :=
  ⟨by decide, by decide, by decide,
   (value_is_everything_after_first_separator (ascii "X-Key") (ascii "a: b? c: d") noOverrides
      (by decide) (by decide) (by decide)).2.2.2.2.1,
   (value_is_everything_after_first_separator (ascii "X-Key") [] noOverrides
      (by decide) (by decide) (by decide)).2.2.2.2.2⟩

/-- C5: for every argument list the parser accepts and every key `k`,
`headers[k]` is the value of the last argument filed as a header at `k` and
`queries[k]` the value of the last argument filed as a query at `k` (absent
when there is none); an argument of the other kind does not count, whatever
its key. -/
theorem duplicate_keys_last_write_wins (args : List Str) (os : OverrideSet)
    (h : parseOverrides args = .ok os) (k : Str) :
    os.headers.get k = lastValue Kind.header k args ∧
    os.queries.get k = lastValue Kind.query k args :=
  parse_get_lastValue args os h k

/-- The list `a? 1`, `a: 2`, `a? 3` gives `queries[a] = 3` and
`headers[a] = 2`. -/
theorem duplicate_keys_last_write_wins_witness :
    parseOverrides [ascii "a? 1", ascii "a: 2", ascii "a? 3"] =
      .ok { queries := [(ascii "a", ascii "3")], headers := [(ascii "a", ascii "2")] } ∧
    GoMap.get [(ascii "a", ascii "2")] (ascii "a") =
      lastValue Kind.header (ascii "a") [ascii "a? 1", ascii "a: 2", ascii "a? 3"] ∧
    GoMap.get [(ascii "a", ascii "3")] (ascii "a") =
      lastValue Kind.query (ascii "a") [ascii "a? 1", ascii "a: 2", ascii "a? 3"] ∧
    GoMap.get [(ascii "a", ascii "2")] (ascii "a") = some (ascii "2") ∧
    GoMap.get [(ascii "a", ascii "3")] (ascii "a") = some (ascii "3") :=
  ⟨by decide,
   (duplicate_keys_last_write_wins [ascii "a? 1", ascii "a: 2", ascii "a? 3"]
      { queries := [(ascii "a", ascii "3")], headers := [(ascii "a", ascii "2")] }
      (by decide) (ascii "a")).1,
   (duplicate_keys_last_write_wins [ascii "a? 1", ascii "a: 2", ascii "a? 3"]
      { queries := [(ascii "a", ascii "3")], headers := [(ascii "a", ascii "2")] }
      (by decide) (ascii "a")).2,
   by decide, by decide⟩

/-- C10: when every argument has a first field that ends in `?`, or holds no `?`
and ends in `:`, and that is followed at once by a space, then for every
argument the three indexed reads are in range (the first field, the key
without its last byte, the second piece of the split on the separator), the
argument is classified, and the parser returns an override set. -/
theorem parser_indexes_in_range (args : List Str) (h : ∀ arg ∈ args, safeArg arg) :
    (∀ arg ∈ args, ∃ tok kind v,
      index (Fields arg) 0 = .ok tok ∧ dropLastByte tok = .ok tok.dropLast ∧
      index (SplitN arg (if kind = Kind.query then sepQuery else sepHeader) 2) 1 = .ok v ∧
      classify arg = .ok (kind, tok.dropLast, v)) ∧
    ∃ os, parseOverrides args = .ok os := by
  have hall : ∀ arg ∈ args, ∃ tok kind v,
      index (Fields arg) 0 = .ok tok ∧ dropLastByte tok = .ok tok.dropLast ∧
      index (SplitN arg (if kind = Kind.query then sepQuery else sepHeader) 2) 1 = .ok v ∧
      classify arg = .ok (kind, tok.dropLast, v) := by
    intro arg harg
    obtain ⟨tok, hf, ht⟩ := h arg harg
    obtain ⟨kind, v, h1, h2, h3, h4⟩ := classify_isOk arg tok hf ht
    exact ⟨tok, kind, v, h1, h2, h3, h4⟩
  refine ⟨hall, ?_⟩
  refine foldlM_parseArg_isOk args ?_ _
  intro arg harg
  obtain ⟨tok, kind, v, _, _, _, h4⟩ := hall arg harg
  exact ⟨_, h4⟩

theorem safeArg_query_example : safeArg (ascii "  a:b? 1") :=
  ⟨ascii "a:b?", ⟨by decide, ascii "  ", ascii "1", by decide, by decide⟩, Or.inl (by decide)⟩

theorem safeArg_header_example : safeArg (ascii "X-Test: v") :=
  ⟨ascii "X-Test:", ⟨by decide, [], ascii "v", by decide, by decide⟩,
    Or.inr ⟨by decide, by decide⟩⟩

/-- The arguments `  a:b? 1` and `X-Test: v` have the shape of C10 and are
parsed without a panic. -/
theorem parser_indexes_in_range_witness :
    (∀ arg ∈ [ascii "  a:b? 1", ascii "X-Test: v"], safeArg arg) ∧
    ∃ os, parseOverrides [ascii "  a:b? 1", ascii "X-Test: v"] = .ok os :=
  have hsafe : ∀ arg ∈ [ascii "  a:b? 1", ascii "X-Test: v"], safeArg arg := by
    intro arg harg
    simp only [List.mem_cons, List.mem_singleton, List.not_mem_nil, or_false] at harg
    rcases harg with rfl | rfl
    · exact safeArg_query_example
    · exact safeArg_header_example
  ⟨hsafe, (parser_indexes_in_range _ hsafe).2⟩

/-! ## The claims on the materializer and the projector -/

/-- C6: for every request and every override set (two maps, no key twice),
unless a base64 body substitute fails to decode and stops the program, the
request is resolved and holds, at every header key `k`, the one-element list
of the override value when `k` is overridden and the original value list
otherwise.  Its query string is the encoding of the merged parameters, which
hold, at every key `k`, the one-element list of the override value when `k`
is overridden and the value list parsed from the original query string
otherwise; and, the strings being byte strings, the query parameters parsed
back from the resolved request are these same lists. -/
theorem overrides_replace_key_wise (req : Request) (proto : Str) (os : OverrideSet)
    (subBody : Str) (b64 : Bool) (hh : os.headers.WF) (hq : os.queries.WF) :
    (subBody ≠ [] ∧ b64 = true ∧ DecodeString subBody = none ∧
        materialize req proto os subBody b64 = .error (Abort.fatal decodeFailed)) ∨
      ∃ r, materialize req proto os subBody b64 = .ok r ∧ ∀ k,
        r.Header.get k =
          (match os.headers.get k with
           | some v => some [v]
           | none => req.Header.get k) ∧
        r.URL.RawQuery = Values.Encode (queryValues req os) ∧
        (queryValues req os).get k =
          (match os.queries.get k with
           | some v => some [v]
           | none => req.URL.Query.get k) ∧
        (isBytes req.URL.RawQuery → (∀ p ∈ os.queries, isBytes p.1 ∧ isBytes p.2) →
          r.URL.Query.get k =
            (match os.queries.get k with
             | some v => some [v]
             | none => req.URL.Query.get k)) := by
  rcases materialize_outcome req proto os subBody b64 with hfail | ⟨r, hr, h1, h2⟩
  · exact Or.inl hfail
  · refine Or.inr ⟨r, hr, fun k => ?_⟩
    have hvals : (queryValues req os).get k =
        (match os.queries.get k with
         | some v => some [v]
         | none => req.URL.Query.get k) := get_override req.URL.Query os.queries k hq
    refine ⟨?_, ?_, hvals, ?_⟩
    · rw [h1]
      exact get_override req.Header os.headers k hh
    · rw [h2]
    · intro hraw hbytes
      have hgood : Values.Good (queryValues req os) :=
        override_good _ _ (ParseQuery_good _ hraw) hbytes
      have hq' : r.URL.Query = ParseQuery (Values.Encode (queryValues req os)) := by
        rw [h2]
        rfl
      rw [hq', ParseQuery_Encode _ hgood k, hvals]

/-- The request of the scenario with the headers `Accept: a, b` and
`X-Test: old` and the query `a=1&b=3`, under `a? 2` and `X-Test: v`: it is
resolved, `X-Test` holds `v` alone, `Accept` keeps its two values, the query
parameter `a` is `2` and `b` is still `3`. -/
theorem overrides_replace_key_wise_witness :
    GoMap.WF scenarioOverrides.headers ∧ GoMap.WF scenarioOverrides.queries ∧
    materialize witnessRequest (ascii "http") scenarioOverrides [] false =
      .ok witnessResolved ∧
    GoMap.get witnessResolved.Header (ascii "X-Test") = some [ascii "v"] ∧
    GoMap.get witnessResolved.Header (ascii "Accept") = some [ascii "a", ascii "b"] ∧
    GoMap.get witnessResolved.URL.Query (ascii "a") = some [ascii "2"] ∧
    GoMap.get witnessResolved.URL.Query (ascii "b") = some [ascii "3"] := by
  have hh : GoMap.WF scenarioOverrides.headers := by decide
  have hq : GoMap.WF scenarioOverrides.queries := by decide
  have hr : materialize witnessRequest (ascii "http") scenarioOverrides [] false =
      .ok witnessResolved := by decide
  rcases overrides_replace_key_wise witnessRequest (ascii "http") scenarioOverrides [] false
    hh hq with hfail | ⟨r, hr', hall⟩
  · exact absurd hfail.1 (by decide)
  · have hrr : r = witnessResolved := Except.ok.inj (hr'.symm.trans hr)
    subst hrr
    exact ⟨hh, hq, hr, (hall (ascii "X-Test")).1, (hall (ascii "Accept")).1,
      (hall (ascii "a")).2.2.2 (by decide) (by decide),
      (hall (ascii "b")).2.2.2 (by decide) (by decide)⟩

/-- C7: for every request, scheme, override set and body substitute, either the
substitute is declared base64 and does not decode, and the program stops with
the fatal message, or the request is resolved: its URL has the chosen scheme,
the host of the request's `Host` field, the original path, and as query string
the encoding of the merged query parameters: the pairs written are, key by
key, the values of the merged parameters, and their keys are in ascending
order.  In the scenario (`GET /x?a=1`, host `example.com`, arguments `a? 2`
and `X-Test: v`, scheme `http`) the resolved URL has the scheme `http`, the
host `example.com`, the path `/x` and the query `a=2`, and the header `X-Test`
holds the one value `v`. -/
theorem resolved_url (req : Request) (proto : Str) (os : OverrideSet) (subBody : Str)
    (b64 : Bool) :
    ((subBody ≠ [] ∧ b64 = true ∧ DecodeString subBody = none ∧
        materialize req proto os subBody b64 = .error (Abort.fatal decodeFailed)) ∨
      ∃ r, materialize req proto os subBody b64 = .ok r ∧
        r.URL = { Scheme := proto, Host := req.Host, Path := req.URL.Path,
                  RawQuery := Values.Encode (queryValues req os) }) ∧
    Values.Encode (queryValues req os) =
      (encodePairs (queryValues req os)).foldl writePair [] ∧
    (∀ k, ((encodePairs (queryValues req os)).filter (fun p => p.1 = k)).map Prod.snd =
      ((queryValues req os).get k).getD []) ∧
    List.Sorted (fun a b => strLe a b = true)
      ((encodePairs (queryValues req os)).map Prod.fst) ∧
    resolve [ascii "a? 2", ascii "X-Test: v"] scenarioRequest (ascii "http") [] false =
      .ok { scenarioRequest with
        URL := { Scheme := ascii "http", Host := ascii "example.com", Path := ascii "/x",
                 RawQuery := ascii "a=2" }
        Header := [(ascii "X-Test", [ascii "v"])]
        RequestURI := [] } := by
  have hwf : GoMap.WF (queryValues req os) := override_wf _ _ (ParseQuery_wf _)
  refine ⟨?_, rfl, fun k => encodePairs_filter _ hwf k, encodePairs_sorted _, by decide⟩
  rcases materialize_outcome req proto os subBody b64 with hfail | ⟨r, hr, _, h2⟩
  · exact Or.inl hfail
  · exact Or.inr ⟨r, hr, h2⟩

/-- C8, as the claim states it, fails for the empty byte string: its base64
encoding is the empty string, which the program takes as "no body substitute",
so the request keeps its original body `x` instead of getting the empty body. -/
theorem empty_substitute_keeps_original_body :
    EncodeToString [] = [] ∧
    Except.map Request.Body (materialize bodyRequest (ascii "https") noOverrides
      (EncodeToString []) true) = Except.ok (ascii "x") ∧
    ascii "x" ≠ ([] : Str) := by decide

/-- C8 (amended): for every non-empty byte string `b` and every request, scheme
and override set, the standard base64 encoding of `b` given as body substitute
with the base64 flag set makes materialization succeed with a request whose
body is exactly `b`, the other fields being those of the patched request. -/
theorem base64_body_round_trip (b : Str) (req : Request) (proto : Str) (os : OverrideSet)
    (hb : isBytes b) (hne : b ≠ []) :
    materialize req proto os (EncodeToString b) true =
      .ok { Method := req.Method
            URL := { Scheme := proto, Host := req.Host, Path := req.URL.Path,
                     RawQuery := Values.Encode (queryValues req os) }
            Proto := req.Proto
            Header := override req.Header os.headers
            Body := b
            Host := req.Host
            RequestURI := [] } := by
  rw [materialize_eq]
  simp only [encode_ne_nil b hne, ne_eq, not_false_eq_true, if_true, decode_encode b hb]

/-- The base64 text of `hello` is `aGVsbG8=`, and as body substitute it gives a
resolved request whose body is `hello`. -/
theorem base64_body_round_trip_witness :
    isBytes (ascii "hello") ∧ ascii "hello" ≠ [] ∧
    EncodeToString (ascii "hello") = ascii "aGVsbG8=" ∧
    Except.map Request.Body (materialize scenarioRequest (ascii "http") noOverrides
      (EncodeToString (ascii "hello")) true) = Except.ok (ascii "hello") :=
  ⟨by decide, by decide, by decide,
   by rw [base64_body_round_trip (ascii "hello") scenarioRequest (ascii "http") noOverrides
        (by decide) (by decide)]; rfl⟩

/-- C9: for every response and every setting of the two flags, the projected
record has the status, status code, protocol (with its major and minor number),
headers, content length, transfer-encoding list, close flag and compression
flag of the response; its body is empty under omit-body and is everything the
body stream delivers otherwise; its TLS field is absent without tls-info and is
the TLS summary of the response with it. -/
theorem http2response_field_policy (noBody yesTLS : Bool) (r : HttpResponse) :
    (http2response noBody yesTLS r).Status = r.Status ∧
    (http2response noBody yesTLS r).StatusCode = r.StatusCode ∧
    (http2response noBody yesTLS r).Proto = r.Proto ∧
    (http2response noBody yesTLS r).ProtoMajor = r.ProtoMajor ∧
    (http2response noBody yesTLS r).ProtoMinor = r.ProtoMinor ∧
    (http2response noBody yesTLS r).Header = r.Header ∧
    (http2response noBody yesTLS r).ContentLength = r.ContentLength ∧
    (http2response noBody yesTLS r).TransferEncoding = r.TransferEncoding ∧
    (http2response noBody yesTLS r).Close = r.Close ∧
    (http2response noBody yesTLS r).Uncompressed = r.Uncompressed ∧
    (http2response noBody yesTLS r).Body = (if noBody then [] else readAll r.Body) ∧
    (http2response noBody yesTLS r).TLS = (if yesTLS then r.TLS else none) := by
  cases noBody <;> cases yesTLS <;> simp [http2response]

end Sendhttp
